import Mathlib

/-!
Verification of the persistent sequence-record store of MersenneForumAliquot
(`mfaliquot/application/__init__.py`).

The Python classes are shallowly embedded as follows.

* `AliquotSequence` (a 14-slot list with named attribute access) becomes the
  structure `Record` with one field per slot.  The extra Python attribute
  `_heap_entry` (a reference to the mutable heap entry owned by the record)
  becomes the field `heapToken : Option Nat`: heap entries are mutable list
  objects shared between the heap array and their record, so we give each
  entry object an identity (a token, allocated from `Store.next`) and keep
  the entry contents in a side table `Store.entries`; mutating an entry
  (`_sabotage_heap_entry`) updates that table, which is visible both through
  the heap array (a list of tokens) and through the record's token.
* Python `dict` becomes an insertion-ordered association list with unique
  keys (`alLookup` / `alInsert` / `alErase`); assigning to an existing key
  replaces the value in place, a new key is appended, exactly like `dict`.
* `heapq` (CPython `Lib/heapq.py`) is translated function by function:
  `_siftdown`, `_siftup`, `heappush`, `heappop`, `heapify` below follow the
  CPython source, so that the raw array order of the heap (which
  `unlock_write` observes by iterating `self._heap` directly) is modelled
  exactly.  Entry comparison is Python's lexicographic list comparison of
  `[priority, time, seq]`; one deviation: Python raises `TypeError` when a
  tie on `(priority, time)` forces comparing `None` (a sabotaged seq slot)
  with an `int`, while our `seqLtB` totalises that comparison (`none` sorts
  first).  No theorem below depends on the order of entries that tie on
  `(priority, time)`.
* Exceptions become either `Except PyErr` results (for operations whose
  partial effects are irrelevant) or a `Store × Option PyErr` result (for
  mutators such as `drop`, where the state reached before the raise is the
  point of interest).
* Machine reals: the priorities in the file are Python floats; we model them
  as `ℚ`.  All concrete priorities used in theorems are small integers or
  thousandths, which floats represent exactly.
-/

set_option maxHeartbeats 1000000

deriving instance DecidableEq for Except

namespace MFAliquot

/-- Python exception classes that the modelled code can raise. -/
inductive PyErr where
  | lockError
  | keyError
  | valueError
  | typeError
  | attributeError
  | indexError
  | unboundLocalError
deriving DecidableEq, Repr

/-- The `progress` slot holds either an int (a step count), a date string, or
`None` (its default). -/
inductive Progress where
  | int (n : Int)
  | str (s : String)
  | null
deriving DecidableEq, Repr

/-- One `AliquotSequence`: the 14 named slots of the Python class (see
`AliquotSequence._map`), plus `heapToken`, modelling the `_heap_entry`
back-reference attribute (not part of the list, never serialized). -/
structure Record where
  seq : Option Int
  size : Option Int
  index : Option Int
  guide : String
  factors : String
  cofactor : String
  klass : Option Int
  res : String
  progress : Progress
  time : String
  nzilch : Int
  priority : ℚ
  id : Option Int
  driver : Option String
  heapToken : Option Nat
deriving DecidableEq, Repr

/-- A record with every slot at its `AliquotSequence._defaults` value. -/
def defaultRecord : Record :=
  { seq := none, size := none, index := none, guide := "", factors := "",
    cofactor := "", klass := none, res := "", progress := .null, time := "",
    nzilch := 0, priority := 0, id := none, driver := none, heapToken := none }

/-! ### Insertion-ordered dictionaries (Python `dict`) -/

def alLookup {K V : Type} [DecidableEq K] : List (K × V) → K → Option V
  | [], _ => none
  | (k', v) :: rest, k => if k' = k then some v else alLookup rest k

/-- `d[k] = v`: replace in place if the key exists, else append. -/
def alInsert {K V : Type} [DecidableEq K] : List (K × V) → K → V → List (K × V)
  | [], k, v => [(k, v)]
  | (k', v') :: rest, k, v =>
      if k' = k then (k, v) :: rest else (k', v') :: alInsert rest k v

/-- `del d[k]`: remove the (unique) binding of `k`. -/
def alErase {K V : Type} [DecidableEq K] : List (K × V) → K → List (K × V)
  | [], _ => []
  | (k', v') :: rest, k => if k' = k then rest else (k', v') :: alErase rest k

/-! ### Heap entries and their comparison

A heap entry is the mutable list `[ali.priority, ali.time, ali.seq]`
(`_SequencesData._make_heap_entry`); sabotage overwrites slot 2 with `None`.
-/

structure Entry where
  prio : ℚ
  time : String
  seq : Option Int
deriving DecidableEq, Repr

/-- Totalised comparison of the third entry slot.  In Python `None < int`
raises `TypeError`; it is only reached on exact `(priority, time)` ties, and
no theorem below depends on its outcome. -/
def seqLtB : Option Int → Option Int → Bool
  | none, none => false
  | none, some _ => true
  | some _, none => false
  | some a, some b => decide (a < b)

/-- Python's lexicographic `<` on the entry lists `[prio, time, seq]`. -/
def entryLtB (a b : Entry) : Bool :=
  if a.prio < b.prio then true
  else if b.prio < a.prio then false
  else if a.time < b.time then true
  else if b.time < a.time then false
  else seqLtB a.seq b.seq

/-- The `(priority, time)` part of the entry order, as a (total, transitive)
relation.  Sabotage changes only the `seq` slot, so this quasi-order on the
entries in the heap is stable under sabotage; every ordering fact we prove
about the heap is stated with respect to it. -/
def key2le (a b : Entry) : Prop :=
  a.prio < b.prio ∨ (a.prio = b.prio ∧ a.time ≤ b.time)

/-! ### CPython `heapq`, translated

The heap is the list of entry tokens; `ltb` is the comparison on tokens
induced by the current entry table.  Each function mirrors the CPython
source of `Lib/heapq.py`.
-/

/-- The loop of CPython `_siftdown(heap, startpos, pos)` after saving
`newitem`: move parents down while `newitem < parent`.  Returns the array
(with the hole not yet filled) and the final hole position; the caller
writes `newitem` there.  `fuel` is a structural-recursion bound: whenever
`pos ≤ fuel` the `0` case is only reached with `pos = 0`, where it returns
exactly what the loop guard `pos > startpos` would, so the function agrees
with the unbounded loop (every lemma below carries `pos ≤ fuel`). -/
def siftdownAux (ltb : Nat → Nat → Bool) (newitem : Nat) :
    Nat → List Nat → Nat → Nat → List Nat × Nat
  | 0, heap, _, pos => (heap, pos)
  | fuel + 1, heap, startpos, pos =>
      if startpos < pos then
        if ltb newitem (heap.getD ((pos - 1) / 2) 0) then
          siftdownAux ltb newitem fuel
            (heap.set pos (heap.getD ((pos - 1) / 2) 0)) startpos ((pos - 1) / 2)
        else (heap, pos)
      else (heap, pos)

/-- CPython `_siftdown(heap, startpos, pos)`. -/
def siftdown (ltb : Nat → Nat → Bool) (heap : List Nat) (startpos pos : Nat) :
    List Nat :=
  let newitem := heap.getD pos 0
  let r := siftdownAux ltb newitem pos heap startpos pos
  r.1.set r.2 newitem

/-- The child chosen by `_siftup`'s descent: the right child when it exists
and the left is not strictly smaller, else the left child. -/
def pickChild (ltb : Nat → Nat → Bool) (heap : List Nat) (pos : Nat) : Nat :=
  if 2 * pos + 2 < heap.length ∧
      ¬ ltb (heap.getD (2 * pos + 1) 0) (heap.getD (2 * pos + 2) 0) then
    2 * pos + 2
  else 2 * pos + 1

/-- The descent loop of CPython `_siftup(heap, pos)`: move the smaller child
up, down to a leaf.  Returns the array (hole at the returned position).
`fuel` is a structural-recursion bound: whenever `heap.length ≤ fuel + pos`
the `0` case is only reached with `heap.length ≤ pos`, where it returns
exactly what the loop guard `childpos < endpos` would (every lemma below
carries that bound). -/
def siftupAux (ltb : Nat → Nat → Bool) :
    Nat → List Nat → Nat → List Nat × Nat
  | 0, heap, pos => (heap, pos)
  | fuel + 1, heap, pos =>
      if 2 * pos + 1 < heap.length then
        siftupAux ltb fuel (heap.set pos (heap.getD (pickChild ltb heap pos) 0))
          (pickChild ltb heap pos)
      else (heap, pos)

/-- CPython `_siftup(heap, pos)`: descend to a leaf, place `newitem` there,
then bubble it back up with `_siftdown`. -/
def siftup (ltb : Nat → Nat → Bool) (heap : List Nat) (pos : Nat) : List Nat :=
  let newitem := heap.getD pos 0
  let r := siftupAux ltb heap.length heap pos
  siftdown ltb (r.1.set r.2 newitem) pos r.2

/-- CPython `heappush`: append, then sift down towards the root. -/
def heappush (ltb : Nat → Nat → Bool) (heap : List Nat) (item : Nat) :
    List Nat :=
  siftdown ltb (heap ++ [item]) 0 heap.length

/-- CPython `heappop`: `IndexError` on an empty heap; otherwise return the
root, move the last element to the root and sift it up. -/
def heappop (ltb : Nat → Nat → Bool) : List Nat → Except PyErr (Nat × List Nat)
  | [] => .error .indexError
  | [x] => .ok (x, [])
  | x :: y :: rest =>
      .ok (x, siftup ltb (((x :: y :: rest).dropLast).set 0
        ((x :: y :: rest).getLast (by simp))) 0)

/-- The loop of CPython `heapify`: `for i in reversed(range(n//2)): _siftup(x, i)`. -/
def heapifyGo (ltb : Nat → Nat → Bool) : Nat → List Nat → List Nat
  | 0, heap => heap
  | i + 1, heap => heapifyGo ltb i (siftup ltb heap i)

/-- CPython `heapify`. -/
def heapify (ltb : Nat → Nat → Bool) (heap : List Nat) : List Nat :=
  heapifyGo ltb (heap.length / 2) heap

/-! ### The store (`_SequencesData`) -/

/-- The in-memory state of a locked-and-loaded `_SequencesData`: the entry
table (entry object identity → current contents), the heap array of entry
tokens, the id map `self._data`, the token supply, and `self.resdatetime`
(`none` models the attribute being absent). -/
structure Store where
  entries : List (Nat × Entry)
  heap : List Nat
  data : List (Option Int × Record)
  next : Nat
  resdatetime : Option String
deriving DecidableEq, Repr

/-- Current contents of the entry object `t`.  Tokens in the heap are always
allocated, so the default is never observed. -/
def keyOf (es : List (Nat × Entry)) (t : Nat) : Entry :=
  (alLookup es t).getD ⟨0, "", none⟩

/-- The comparison on entry tokens induced by the entry table: Python
compares the current contents of the two entry objects. -/
def mkLt (es : List (Nat × Entry)) (t u : Nat) : Bool :=
  entryLtB (keyOf es t) (keyOf es u)

/-- `_make_heap_entry`: the new entry list `[ali.priority, ali.time, ali.seq]`. -/
def makeHeapEntry (ali : Record) : Entry :=
  ⟨ali.priority, ali.time, ali.seq⟩

/-- An entry with its `seq` slot overwritten by `None`. -/
def tombstoneE (e : Entry) : Entry := ⟨e.prio, e.time, none⟩

/-- `_sabotage_heap_entry`: `ali._heap_entry[2] = None`, i.e. overwrite the
`seq` slot of entry object `t` in the table. -/
def setSeqNone (es : List (Nat × Entry)) (t : Nat) : List (Nat × Entry) :=
  es.map fun p => if p.1 = t then (p.1, tombstoneE p.2) else p

/-- `push_new_info(ali)`: `self._data[ali.seq] = ali` then
`self._heap.push(self._make_heap_entry(ali))`.  A fresh entry object is
allocated and wired to the record; any previous binding of `ali.seq` is
silently overwritten, its old entry left in the heap untouched. -/
def push_new_info (st : Store) (ali : Record) : Store :=
  let tok := st.next
  let es := alInsert st.entries tok (makeHeapEntry ali)
  { entries := es
    heap := heappush (mkLt es) st.heap tok
    data := alInsert st.data ali.seq { ali with heapToken := some tok }
    next := st.next + 1
    resdatetime := st.resdatetime }

/-- `drop(seqs)`: for each id in order, raise `KeyError` if it is not a key
of the id map, else sabotage its record's heap entry and delete the id-map
binding.  The state in which the loop raises is returned alongside the
error: mutations made before the raise persist. -/
def drop (st : Store) : List Int → Store × Option PyErr
  | [] => (st, none)
  | s :: rest =>
      match alLookup st.data (some s) with
      | none => (st, some .keyError)
      | some ali =>
          match ali.heapToken with
          | none => (st, some .attributeError)
          | some t =>
              drop { st with entries := setSeqNone st.entries t,
                             data := alErase st.data (some s) } rest

/-- The generator loop of `pop_n_todo(n)`: pop entries, skip sabotaged ones
(`if seq:` — `None` and `0` are falsy), yield live seqs until `n` are
produced; an empty heap raises `IndexError` out of the generator.  Returns
the yielded ids in order, the store after the run, and the error if any.
`fuel` is a structural bound: whenever `st.heap.length + n ≤ fuel`, the `0`
case is only reached with `n = 0`, which is the loop's own exit. -/
def popNTodoGo : Nat → Store → Nat → List Int × Store × Option PyErr
  | 0, st, _ => ([], st, none)
  | fuel + 1, st, n =>
      if n = 0 then ([], st, none)
      else
        match heappop (mkLt st.entries) st.heap with
        | .error e => ([], st, some e)
        | .ok (t, heap') =>
            match (keyOf st.entries t).seq with
            | some s =>
                if s ≠ 0 then
                  let r := popNTodoGo fuel { st with heap := heap' } (n - 1)
                  (s :: r.1, r.2)
                else popNTodoGo fuel { st with heap := heap' } n
            | none => popNTodoGo fuel { st with heap := heap' } n

/-- `pop_n_todo(n)`, run to completion (the callers in this module consume
the generator eagerly). -/
def popNTodo (st : Store) (n : Nat) : List Int × Store × Option PyErr :=
  popNTodoGo (st.heap.length + n) st n

/-! ### `SequencesManager`: reservations -/

/-- `reserve_seqs(name, seqs)`: classify each id; set `res = name` on the
unreserved ones.  Returns the new store and `(DNEs, already_owns,
other_owns)`.  Despite its docstring, the method raises nothing: missing ids
go to the `DNEs` list. -/
def reserve_seqs (st : Store) (name : String) :
    List Int → Store × (List Int × List Int × List (Int × String))
  | [] => (st, ([], [], []))
  | s :: rest =>
      match alLookup st.data (some s) with
      | none =>
          let r := reserve_seqs st name rest
          (r.1, (s :: r.2.1, r.2.2.1, r.2.2.2))
      | some ali =>
          if ali.res = "" then
            reserve_seqs
              { st with data := alInsert st.data (some s) { ali with res := name } }
              name rest
          else if name = ali.res then
            let r := reserve_seqs st name rest
            (r.1, (r.2.1, s :: r.2.2.1, r.2.2.2))
          else
            let r := reserve_seqs st name rest
            (r.1, (r.2.1, r.2.2.1, (s, ali.res) :: r.2.2.2))

/-- `unreserve_seqs(name, seqs)`: classify each id; clear `res` on exact
owner matches.  Returns the new store and `(DNEs, not_reserveds,
wrong_reserveds)`. -/
def unreserve_seqs (st : Store) (name : String) :
    List Int → Store × (List Int × List Int × List (Int × String))
  | [] => (st, ([], [], []))
  | s :: rest =>
      match alLookup st.data (some s) with
      | none =>
          let r := unreserve_seqs st name rest
          (r.1, (s :: r.2.1, r.2.2.1, r.2.2.2))
      | some ali =>
          if ali.res = "" then
            let r := unreserve_seqs st name rest
            (r.1, (r.2.1, s :: r.2.2.1, r.2.2.2))
          else if name = ali.res then
            unreserve_seqs
              { st with data := alInsert st.data (some s) { ali with res := "" } }
              name rest
          else
            let r := unreserve_seqs st name rest
            (r.1, (r.2.1, r.2.2.1, (s, ali.res) :: r.2.2.2))

/-! ### `AliquotSequence.calculate_priority`

The source (lines 140-173) reads, in the date-string branch:

    if deltadays > begin_time_penalty:
         days -= begin_time_penalty
         max_update_period -= begin_time_penalty
         ratio = (deltadays - begin_time_penalty)/(max_update_period - begin_time_penalty)
         prio *= (1-ratio)

The name `days` is never assigned anywhere in the function (the computed
quantity is `deltadays`), so `days -= begin_time_penalty` raises
`UnboundLocalError` whenever that branch is reached.  (Were that line
deleted, `max_update_period -= begin_time_penalty` still shrinks the
denominator to `max_update_period - 2*begin_time_penalty`, contradicting
the adjacent comment "when deltadays == mup, penalty factor = 1".)
-/

/-- Python `round(q, 3)` (round-half-to-even on the thousandths). -/
def round3 (q : ℚ) : ℚ :=
  (if Int.fract (q * 1000) < 1 / 2 then (⌊q * 1000⌋ : ℚ) / 1000
   else if 1 / 2 < Int.fract (q * 1000) then ((⌊q * 1000⌋ : ℚ) + 1) / 1000
   else if Even ⌊q * 1000⌋ then (⌊q * 1000⌋ : ℚ) / 1000
   else ((⌊q * 1000⌋ : ℚ) + 1) / 1000)

/-- The tail of `calculate_priority` common to all non-raising paths:
`if self.res: prio *= res_factor`, then `self.priority = round(prio, 3)`. -/
def calcFinish (ali : Record) (prio res_factor : ℚ) : Record :=
  { ali with priority := round3 (if ali.res ≠ "" then prio * res_factor else prio) }

/-- `calculate_priority(max_update_period, begin_time_penalty, res_factor)`.
`deltaOf` models `(datetime.datetime.utcnow().date() - lastprog).days` for a
given progress date string (the wall clock is outside the program). -/
def calculate_priority (ali : Record) (max_update_period begin_time_penalty : Int)
    (res_factor : ℚ) (deltaOf : String → Int) : Except PyErr Record :=
  match ali.progress with
  | .str s =>
      if deltaOf s > begin_time_penalty then
        .error .unboundLocalError
      else .ok (calcFinish ali (ali.nzilch : ℚ) res_factor)
  | _ => .ok (calcFinish ali (ali.nzilch : ℚ) res_factor)

/-! ### Serialization: `unlock_write` and `lock_read_init` -/

/-- `AliquotSequence.is_valid`: `seq`, `size > 0`, `index > 0` and `factors`
all truthy. -/
def isValid (r : Record) : Bool :=
  (match r.seq with | some n => decide (n ≠ 0) | none => false) &&
  (match r.size with | some n => decide (0 < n) | none => false) &&
  (match r.index with | some n => decide (0 < n) | none => false) &&
  (r.factors ≠ "")

def rjust (s : String) (w : Nat) : String :=
  if s.length < w then String.mk (List.replicate (w - s.length) ' ') ++ s else s

/-- `AliquotSequence.__str__`: `"{:>7d} {:>5d}. sz {:>3d} {:s}"` on
`(seq, index, size, factors)`; `ValueError` when not fully described.  (On a
valid record the three numeric slots are `some`, so the defaults below are
never read.) -/
def strRecord (r : Record) : Except PyErr String :=
  if isValid r then
    .ok (rjust (toString (r.seq.getD 0)) 7 ++ " " ++
         rjust (toString (r.index.getD 0)) 5 ++ ". sz " ++
         rjust (toString (r.size.getD 0)) 3 ++ " " ++ r.factors)
  else .error .valueError

/-- The JSON value of `AllSeq.json`: the `aaData` row list (each row the 14
slots of a record; `heapToken` is an in-memory attribute and is normalised
to `none` on serialization) and the optional `resdatetime` member. -/
structure SerializedFile where
  aaData : List Record
  resdatetime : Option String
deriving DecidableEq, Repr

/-- Strip the in-memory `_heap_entry` attribute: JSON serializes only the 14
list slots. -/
def stripTok (r : Record) : Record := { r with heapToken := none }

def strAll : List Record → Except PyErr (List String)
  | [] => .ok []
  | r :: rest =>
      match strRecord r with
      | .error e => .error e
      | .ok s =>
          match strAll rest with
          | .error e => .error e
          | .ok ss => .ok (s :: ss)

/-- The `sorted(out, key=lambda ali: ali.seq)` comparison (all written
records have integer seqs on the paths the theorems take). -/
def seqLeB (a b : Record) : Bool := decide (a.seq.getD 0 ≤ b.seq.getD 0)

def insertSorted {α : Type} (le : α → α → Bool) (x : α) : List α → List α
  | [] => [x]
  | y :: ys => if le x y then x :: y :: ys else y :: insertSorted le x ys

/-- A stable sort (Python's `sorted` is stable): insert each element before
the elements it ties with that came later in the input. -/
def pySorted {α : Type} (le : α → α → Bool) : List α → List α
  | [] => []
  | x :: xs => insertSorted le x (pySorted le xs)

/-- `unlock_write` (source lines 389-418), up to the file system:

    out = [item[2] for item in self._heap if item[2] in self._data]
    missing = set(self._data.keys()).difference(out)
    out = [self._data[seq] for seq in out]
    out.extend(self._data[seq] for seq in missing)

then the JSON dump of `{aaData: out, resdatetime?}` and the text mirror of
`str(ali)` for `ali` sorted by seq.  The heap is read in its raw array
order, not popped.  (`missing` is a Python set; we materialise it in id-map
order.)  Returns the written JSON value and mirror text. -/
def unlock_write (st : Store) : Except PyErr (SerializedFile × String) :=
  let outSeqs : List (Option Int) :=
    (st.heap.map fun t => (keyOf st.entries t).seq).filter
      fun os => (alLookup st.data os).isSome
  let missing : List (Option Int) :=
    (st.data.map Prod.fst).filter fun k => ¬ k ∈ outSeqs
  let outRecs : List Record :=
    outSeqs.filterMap (alLookup st.data) ++ missing.filterMap (alLookup st.data)
  match strAll (pySorted seqLeB outRecs) with
  | .error e => .error e
  | .ok lines =>
      .ok ({ aaData := outRecs.map stripTok, resdatetime := st.resdatetime },
           String.intercalate "\n" lines ++ "\n")

/-- The loading part of `lock_read_init` (source lines 341-362): each row
becomes a record, entry `i` is made from row `i` and wired to it,
`self._data[ali.seq] = ali` in row order, then `heapify`. -/
def loadStore (f : SerializedFile) : Store :=
  let entries := f.aaData.enum.map fun p => (p.1, makeHeapEntry p.2)
  { entries := entries
    heap := heapify (mkLt entries) (List.range f.aaData.length)
    data := f.aaData.enum.foldl
      (fun d p => alInsert d p.2.seq { p.2 with heapToken := some p.1 }) []
    next := f.aaData.length
    resdatetime := f.resdatetime }

/-! ### Locking (`_lock`, `lock_read_init`, `acquire_lock` / `__enter__`)

The file system is reduced to one bit: whether the lock file exists.
`open(lockfile, 'x')` has exclusive-create semantics: it fails iff the file
already exists. -/

/-- `lock_read_init` including `self._lock()`: `LockError` if the lock file
exists, else create it and load.  Returns the store and the new lock bit. -/
def lock_read_init (f : SerializedFile) (lockExists : Bool) :
    Except PyErr (Store × Bool) :=
  if lockExists then .error .lockError else .ok (loadStore f, true)

/-- The retry loop of `__enter__` against a lock held (by another process)
for the whole window: `k` remaining iterations, counting attempts made.  On
exhaustion the saved `LockError` is re-raised. -/
def enterLoop (f : SerializedFile) (lockExists : Bool) :
    Nat → Nat → Except PyErr (Store × Bool) × Nat
  | 0, attempts => (.error .lockError, attempts)
  | k + 1, attempts =>
      match lock_read_init f lockExists with
      | .ok r => (.ok r, attempts + 1)
      | .error _ => enterLoop f lockExists k (attempts + 1)

/-- `acquire_lock(block_minutes=bm)` followed by `__enter__`:
`seconds = bm*60`, `period = 1`, `count = seconds // period`, and
`for i in range(count + 1)` attempts of `lock_read_init`. -/
def enterRun (bm : Nat) (f : SerializedFile) (lockExists : Bool) :
    Except PyErr (Store × Bool) × Nat :=
  enterLoop f lockExists (bm * 60 / 1 + 1) 0

/-! ### The read-only mode and its lock guard -/

/-- Modelled from the spec: the read-only initialization mode and the
lock guard on mutating operations are not implemented in
`src/mfaliquot/application/__init__.py`; only their callers exist under
`src/` (`src/tests/test_application.py::test_readonly` calls
`readonly_init`, checks `_have_lock`, and expects `LockError` from `write`,
`drop`, `push_new_info`, `reserve_seqs` and `unreserve_seqs`).  Modelled
from spec §5 ("a 'read-only' initialization mode exists that loads data
without locking and must make every mutating call fail with a
LockError-family condition") and §3 ("A store that is not locked must
reject all mutating operations"): the store carries a `_have_lock` flag;
`readonly_init` loads without locking and clears it; every mutating
operation first checks the flag and raises `LockError` without touching the
data. -/
structure GuardedStore where
  store : Store
  haveLock : Bool
deriving DecidableEq, Repr

/-- Modelled from the spec: `readonly_init` — load the file, take no lock. -/
def readonly_init (f : SerializedFile) : GuardedStore :=
  ⟨loadStore f, false⟩

/-- Modelled from the spec: lock-and-load, setting `_have_lock`. -/
def guardedLockReadInit (f : SerializedFile) : GuardedStore :=
  ⟨loadStore f, true⟩

/-- Modelled from the spec: the write-back, guarded by the lock flag. -/
def guardedWrite (g : GuardedStore) :
    GuardedStore × Except PyErr (SerializedFile × String) :=
  if g.haveLock then
    (⟨g.store, false⟩, unlock_write g.store)
  else (g, .error .lockError)

/-- Modelled from the spec: `drop`, guarded by the lock flag. -/
def guardedDrop (g : GuardedStore) (seqs : List Int) :
    GuardedStore × Option PyErr :=
  if g.haveLock then
    let r := drop g.store seqs
    (⟨r.1, g.haveLock⟩, r.2)
  else (g, some .lockError)

/-- Modelled from the spec: `push_new_info`, guarded by the lock flag. -/
def guardedPush (g : GuardedStore) (ali : Record) :
    GuardedStore × Option PyErr :=
  if g.haveLock then (⟨push_new_info g.store ali, g.haveLock⟩, none)
  else (g, some .lockError)

/-- Modelled from the spec: `reserve_seqs`, guarded by the lock flag. -/
def guardedReserve (g : GuardedStore) (name : String) (seqs : List Int) :
    GuardedStore × Option PyErr :=
  if g.haveLock then
    (⟨(reserve_seqs g.store name seqs).1, g.haveLock⟩, none)
  else (g, some .lockError)

/-- Modelled from the spec: `unreserve_seqs`, guarded by the lock flag. -/
def guardedUnreserve (g : GuardedStore) (name : String) (seqs : List Int) :
    GuardedStore × Option PyErr :=
  if g.haveLock then
    (⟨(unreserve_seqs g.store name seqs).1, g.haveLock⟩, none)
  else (g, some .lockError)

/-! ### Derived notions used by the statements -/

/-- The seq values of the non-tombstoned (live) heap entries, in heap array
order.  Sabotaged entries have `seq = none` and are dropped. -/
def liveSeqs (st : Store) : List Int :=
  st.heap.filterMap fun t => (keyOf st.entries t).seq

/-- The key list of the id map. -/
def keysOf (st : Store) : List (Option Int) := st.data.map Prod.fst

/-- Two records agreeing on every serialized slot except possibly the
recomputed `priority` and `time` fields. -/
def agreeIgnoringPrioTime (r r' : Record) : Prop :=
  r'.seq = r.seq ∧ r'.size = r.size ∧ r'.index = r.index ∧
  r'.guide = r.guide ∧ r'.factors = r.factors ∧ r'.cofactor = r.cofactor ∧
  r'.klass = r.klass ∧ r'.res = r.res ∧ r'.progress = r.progress ∧
  r'.nzilch = r.nzilch ∧ r'.id = r.id ∧ r'.driver = r.driver

/-- Two records agreeing on every slot except possibly `res` (and on the
entry back-reference). -/
def sameExceptRes (r r' : Record) : Prop :=
  r'.seq = r.seq ∧ r'.size = r.size ∧ r'.index = r.index ∧
  r'.guide = r.guide ∧ r'.factors = r.factors ∧ r'.cofactor = r.cofactor ∧
  r'.klass = r.klass ∧ r'.progress = r.progress ∧ r'.time = r.time ∧
  r'.nzilch = r.nzilch ∧ r'.priority = r.priority ∧ r'.id = r.id ∧
  r'.driver = r.driver ∧ r'.heapToken = r.heapToken

/-! ### Concrete stores used by the claim theorems -/

/-- A complete record with the given seq, owner and priority. -/
def mkRec (s : Int) (owner : String) (p : ℚ) : Record :=
  { defaultRecord with
    seq := some s
    size := some 100
    index := some 10
    factors := "2 * 3"
    res := owner
    priority := p }

/-- The reservation scenario of spec §8: 10 owned by alice, 20 by bob, 30
unowned. -/
def c8st0 : Store :=
  loadStore ⟨[mkRec 10 "alice" 1, mkRec 20 "bob" 2, mkRec 30 "" 3], none⟩

def c8st1 : Store := (reserve_seqs c8st0 "alice" [10, 20, 30]).1

def c8st2 : Store := (unreserve_seqs c8st1 "alice" [30]).1

/-- Three records whose file order (priorities 1, 5, 2) is already a valid
binary heap, so `heapify` leaves the array order `[1, 5, 2]` — not sorted. -/
def c4st : Store :=
  loadStore ⟨[mkRec 101 "" 1, mkRec 102 "" 5, mkRec 103 "" 2], none⟩

/-- An empty store locked from an empty file, then `push_new_info` twice for
the same id 5 (an overwrite): the first entry is orphaned but stays live. -/
def cOst2 : Store :=
  push_new_info (push_new_info (loadStore ⟨[], none⟩) (mkRec 5 "" 1)) (mkRec 5 "" 2)

/-- ... and then `drop([5])`: only the second (current) entry is sabotaged;
the orphaned first entry still carries seq 5 while 5 is gone from the map. -/
def cOst3 : Store := (drop cOst2 [5]).1

/-- One record, for exercising `pop_n_todo`. -/
def cPst0 : Store := loadStore ⟨[mkRec 7 "" 1], none⟩

/-- One record with seq 10, for exercising `drop`'s partial application. -/
def c5st0 : Store := loadStore ⟨[mkRec 10 "" 1], none⟩

/-- The file and mirror text written by `unlock_write` on the reservation
store (used to instantiate the round-trip theorem). -/
def c2pair : SerializedFile × String :=
  (unlock_write c8st0).toOption.getD (⟨[], none⟩, "")

/-- The file and mirror text written by `unlock_write` on the heap-order
store `c4st`. -/
def c4pair : SerializedFile × String :=
  (unlock_write c4st).toOption.getD (⟨[], none⟩, "")

/-- The priority-decay record of spec §8: `stationary_count = 10`, no
reservation, `progress` a date string 60 days old. -/
def c3rec : Record :=
  { defaultRecord with
    seq := some 276
    size := some 178
    index := some 893
    factors := "2^2 * 3"
    nzilch := 10
    progress := .str "2025-08-13" }

/-! ### The heap ordering property and the store invariant

`IsHeapFrom R l start` is the binary-heap property of the token array `l`
with respect to a token relation `R`, restricted to edges whose parent index
is at least `start` (the parent of index `c` is `(c - 1) / 2`, exactly as in
`heapq`).  The relation used for the store is `tokLe`: the stable
`(priority, time)` part of the entry order, which sabotage cannot change. -/

def IsHeapFrom (R : Nat → Nat → Prop) (l : List Nat) (start : Nat) : Prop :=
  ∀ c, 0 < c → c < l.length → start ≤ (c - 1) / 2 →
    R (l.getD ((c - 1) / 2) 0) (l.getD c 0)

/-- `q` is `s` or a descendant of `s` in the implicit binary tree. -/
def Desc (s p : Nat) : Bool :=
  if p ≤ s then decide (p = s)
  else Desc s ((p - 1) / 2)
termination_by p
decreasing_by omega

/-- The `(priority, time)` quasi-order on entry tokens induced by the entry
table. -/
def tokLe (es : List (Nat × Entry)) (t u : Nat) : Prop :=
  key2le (keyOf es t) (keyOf es u)

/-- Lexicographic `≤` on `(priority, time)` pairs. -/
def ptLe (a b : ℚ × String) : Prop :=
  a.1 < b.1 ∨ (a.1 = b.1 ∧ a.2 ≤ b.2)

/-- The `(priority, time)` pair of the record with id `s`. -/
def recPT (st : Store) (s : Int) : ℚ × String :=
  match alLookup st.data (some s) with
  | some r => (r.priority, r.time)
  | none => (0, "")

/-- The priority of the record with id `s`. -/
def prioOf (st : Store) (s : Int) : ℚ := (recPT st s).1

/-- The id-map-building fold of `lock_read_init`. -/
def loadFoldStep (d : List (Option Int × Record)) (p : Nat × Record) :
    List (Option Int × Record) :=
  alInsert d p.2.seq { p.2 with heapToken := some p.1 }

/-- Well-formedness of an in-memory store, as established by
`lock_read_init` and preserved by the operations: heap tokens are distinct
and allocated, the entry table's keys are allocated, the id map keys its
records by their own `seq` and has no duplicate key, every live heap entry
points back (through the id map) to a record wired to precisely that entry
and carrying its `(priority, time)`, and the heap array is a binary heap for
the stable part of the entry order. -/
structure WFcore (st : Store) : Prop where
  heapNodup : st.heap.Nodup
  heapTok : ∀ t ∈ st.heap, t < st.next
  entTok : ∀ p ∈ st.entries, p.1 < st.next
  dataW1 : ∀ p ∈ st.data, p.2.seq = p.1
  dataNodup : (st.data.map Prod.fst).Nodup
  live : ∀ t ∈ st.heap, ∀ k : Int, (keyOf st.entries t).seq = some k →
    ∃ r, alLookup st.data (some k) = some r ∧ r.heapToken = some t ∧
      r.priority = (keyOf st.entries t).prio ∧ r.time = (keyOf st.entries t).time
  isHeap : IsHeapFrom (tokLe st.entries) st.heap 0

/-- The other half of the lazy-deletion invariant: every id-map key has a
live heap entry wired back to it.  Broken by `pop_n_todo` (which removes
live entries bodily), maintained by fresh pushes and by `drop`. -/
def keyLive (st : Store) : Prop :=
  ∀ (k : Int) (r : Record), alLookup st.data (some k) = some r →
    ∃ t, r.heapToken = some t ∧ t ∈ st.heap ∧ (keyOf st.entries t).seq = some k

/-- The store operations quantified over by the invariant claims. -/
inductive SOp where
  | push (ali : Record)
  | dropIds (seqs : List Int)
  | popN (n : Nat)

/-- Run one operation, keeping only the resulting state. -/
def applyOp (st : Store) : SOp → Store
  | .push ali => push_new_info st ali
  | .dropIds seqs => (drop st seqs).1
  | .popN n => (popNTodo st n).2.1

/-- Run a list of operations left to right. -/
def applyOps (st : Store) (ops : List SOp) : Store :=
  ops.foldl applyOp st

/-- Every operation of the run satisfies the per-state precondition `P`. -/
def OKRun (P : Store → SOp → Prop) : Store → List SOp → Prop
  | _, [] => True
  | st, op :: ops => P st op ∧ OKRun P (applyOp st op) ops

/-- The preconditions of claim C1: `push_new_info` only on ids not currently
in the map, `drop` only on ids currently present, no `pop_n_todo`. -/
def C1OK (st : Store) : SOp → Prop
  | .push ali => ∃ k : Int, ali.seq = some k ∧ alLookup st.data (some k) = none
  | .dropIds seqs => ∀ s ∈ seqs, (alLookup st.data (some s)).isSome = true
  | .popN _ => False

/-- The preconditions of claim C7: as for C1, but `pop_n_todo` is allowed. -/
def C7OK (st : Store) : SOp → Prop
  | .push ali => ∃ k : Int, ali.seq = some k ∧ alLookup st.data (some k) = none
  | .dropIds seqs => ∀ s ∈ seqs, (alLookup st.data (some s)).isSome = true
  | .popN _ => True

/-! ## Basic lemmas -/

theorem key2le_refl (a : Entry) : key2le a a := .inr ⟨rfl, le_refl _⟩

theorem key2le_trans {a b c : Entry} (h₁ : key2le a b) (h₂ : key2le b c) :
    key2le a c := by
  rcases h₁ with h₁ | ⟨e₁, t₁⟩ <;> rcases h₂ with h₂ | ⟨e₂, t₂⟩
  · exact .inl (lt_trans h₁ h₂)
  · exact .inl (e₂ ▸ h₁)
  · exact .inl (e₁ ▸ h₂)
  · exact .inr ⟨e₁.trans e₂, t₁.trans t₂⟩

/-- If Python's `<` on full entries says `a < b`, then `key2le a b`. -/
theorem key2le_of_entryLtB {a b : Entry} (h : entryLtB a b = true) :
    key2le a b := by
  unfold entryLtB at h
  split_ifs at h with h1 h2 h3 h4
  · exact .inl h1
  · exact .inr ⟨le_antisymm (not_lt.1 h2) (not_lt.1 h1), le_of_lt h3⟩
  · exact .inr ⟨le_antisymm (not_lt.1 h2) (not_lt.1 h1), not_lt.1 h4⟩

/-- If Python's `<` on full entries says `¬(a < b)`, then `key2le b a`. -/
theorem key2le_of_not_entryLtB {a b : Entry} (h : entryLtB a b = false) :
    key2le b a := by
  unfold entryLtB at h
  split_ifs at h with h1 h2 h3 h4
  · exact .inl h2
  · exact .inr ⟨le_antisymm (not_lt.1 h1) (not_lt.1 h2), le_of_lt h4⟩
  · exact .inr ⟨le_antisymm (not_lt.1 h1) (not_lt.1 h2), not_lt.1 h3⟩

theorem pickChild_gt (ltb : Nat → Nat → Bool) (heap : List Nat) (pos : Nat) :
    pos < pickChild ltb heap pos := by
  unfold pickChild; split <;> omega

theorem pickChild_lt_length {ltb : Nat → Nat → Bool} {heap : List Nat}
    {pos : Nat} (h : 2 * pos + 1 < heap.length) :
    pickChild ltb heap pos < heap.length := by
  unfold pickChild; split <;> omega

theorem siftdownAux_length (ltb : Nat → Nat → Bool) (newitem : Nat) :
    ∀ fuel heap startpos pos,
      ((siftdownAux ltb newitem fuel heap startpos pos).1).length = heap.length := by
  intro fuel
  induction fuel with
  | zero => intro heap startpos pos; rfl
  | succ fuel ih =>
      intro heap startpos pos
      rw [siftdownAux]
      split_ifs with h1 h2
      · rw [ih]
        simp
      · rfl
      · rfl

theorem siftdown_length (ltb : Nat → Nat → Bool) (heap : List Nat)
    (startpos pos : Nat) : (siftdown ltb heap startpos pos).length = heap.length := by
  simp [siftdown, siftdownAux_length]

theorem siftupAux_length (ltb : Nat → Nat → Bool) :
    ∀ fuel heap pos,
      ((siftupAux ltb fuel heap pos).1).length = heap.length := by
  intro fuel
  induction fuel with
  | zero => intro heap pos; rfl
  | succ fuel ih =>
      intro heap pos
      rw [siftupAux]
      split_ifs with h1
      · rw [ih]
        simp
      · rfl

theorem siftup_length (ltb : Nat → Nat → Bool) (heap : List Nat) (pos : Nat) :
    (siftup ltb heap pos).length = heap.length := by
  simp [siftup, siftdown_length, siftupAux_length]

theorem heappop_ok_length {ltb : Nat → Nat → Bool} {heap heap' : List Nat}
    {t : Nat} (h : heappop ltb heap = .ok (t, heap')) :
    heap'.length + 1 = heap.length := by
  match heap with
  | [] => exact absurd h (by simp [heappop])
  | [x] =>
      simp only [heappop, Except.ok.injEq, Prod.mk.injEq] at h
      simp [← h.2]
  | x :: y :: rest =>
      simp only [heappop, Except.ok.injEq, Prod.mk.injEq] at h
      rw [← h.2]
      simp [siftup_length]


/-! ## Association list lemmas -/

theorem alLookup_mem_keys {K V : Type} [DecidableEq K] :
    ∀ (d : List (K × V)) (k : K) (v : V),
      alLookup d k = some v → k ∈ d.map Prod.fst := by
  intro d
  induction d with
  | nil => intro k v h; exact absurd h (by simp [alLookup])
  | cons p rest ih =>
      intro k v h
      rw [alLookup] at h
      split_ifs at h with hk
      · simp [hk]
      · simp [ih k v h]

theorem alLookup_alInsert_self {K V : Type} [DecidableEq K] :
    ∀ (d : List (K × V)) (k : K) (v : V),
      alLookup (alInsert d k v) k = some v := by
  intro d
  induction d with
  | nil => intro k v; simp [alInsert, alLookup]
  | cons p rest ih =>
      intro k v
      rw [alInsert]
      split_ifs with hk
      · simp [alLookup]
      · rw [alLookup]
        simp only [hk, if_false]
        exact ih k v

theorem alLookup_alInsert_ne {K V : Type} [DecidableEq K] :
    ∀ (d : List (K × V)) (k k' : K) (v : V), k' ≠ k →
      alLookup (alInsert d k v) k' = alLookup d k' := by
  intro d
  induction d with
  | nil =>
      intro k k' v h
      simp [alInsert, alLookup, Ne.symm h]
  | cons p rest ih =>
      intro k k' v h
      rw [alInsert]
      split_ifs with hk
      · subst hk
        rw [alLookup, alLookup]
        simp [Ne.symm h]
      · rw [alLookup, alLookup]
        split_ifs with h2
        · rfl
        · exact ih k k' v h

theorem alLookup_alErase_ne {K V : Type} [DecidableEq K] :
    ∀ (d : List (K × V)) (k k' : K), k' ≠ k →
      alLookup (alErase d k) k' = alLookup d k' := by
  intro d
  induction d with
  | nil => intro k k' h; rfl
  | cons p rest ih =>
      intro k k' h
      rw [alErase]
      split_ifs with hk
      · subst hk
        rw [alLookup]
        simp [Ne.symm h]
      · rw [alLookup, alLookup]
        split_ifs with h2
        · rfl
        · exact ih k k' h

theorem alLookup_alErase_self {K V : Type} [DecidableEq K] :
    ∀ (d : List (K × V)) (k : K), (d.map Prod.fst).Nodup →
      alLookup (alErase d k) k = none := by
  intro d
  induction d with
  | nil => intro k _; rfl
  | cons p rest ih =>
      intro k hnd
      simp only [List.map_cons, List.nodup_cons] at hnd
      rw [alErase]
      split_ifs with hk
      · subst hk
        cases hl : alLookup rest p.1 with
        | none => rfl
        | some v => exact absurd (alLookup_mem_keys rest p.1 v hl) hnd.1
      · rw [alLookup]
        simp only [hk, if_false]
        exact ih k hnd.2

theorem alErase_keys_sublist {K V : Type} [DecidableEq K] :
    ∀ (d : List (K × V)) (k : K),
      ((alErase d k).map Prod.fst).Sublist (d.map Prod.fst) := by
  intro d
  induction d with
  | nil => intro k; simp [alErase]
  | cons p rest ih =>
      intro k
      rw [alErase]
      split_ifs with hk
      · simp
      · simpa using (ih k).cons₂ p.1

theorem alErase_keys_nodup {K V : Type} [DecidableEq K]
    (d : List (K × V)) (k : K) (hnd : (d.map Prod.fst).Nodup) :
    ((alErase d k).map Prod.fst).Nodup :=
  (alErase_keys_sublist d k).nodup hnd

theorem alLookup_map_val {K V W : Type} [DecidableEq K] (g : K → V → W) :
    ∀ (es : List (K × V)) (u : K),
      alLookup (es.map fun p => (p.1, g p.1 p.2)) u = (alLookup es u).map (g u) := by
  intro es
  induction es with
  | nil => intro u; rfl
  | cons p rest ih =>
      intro u
      obtain ⟨a, v⟩ := p
      rw [List.map_cons, alLookup, alLookup]
      by_cases hau : a = u
      · subst hau
        simp
      · simp only [hau, if_false]
        exact ih u

theorem setSeqNone_eq_map_val (es : List (Nat × Entry)) (t : Nat) :
    setSeqNone es t =
      es.map fun p => (p.1, if p.1 = t then tombstoneE p.2 else p.2) := by
  unfold setSeqNone
  apply List.map_congr_left
  intro p _
  split_ifs with h
  · rfl
  · rfl

theorem alLookup_setSeqNone (es : List (Nat × Entry)) (t u : Nat) :
    alLookup (setSeqNone es t) u =
      if u = t then (alLookup es u).map tombstoneE
      else alLookup es u := by
  rw [setSeqNone_eq_map_val,
    alLookup_map_val (fun u e => if u = t then tombstoneE e else e)]
  split_ifs with h
  · rfl
  · cases alLookup es u <;> simp [h]

/-! ## `drop` lemmas -/

theorem drop_heap_eq : ∀ (seqs : List Int) (st : Store),
    ((drop st seqs).1).heap = st.heap := by
  intro seqs
  induction seqs with
  | nil => intro st; rfl
  | cons s rest ih =>
      intro st
      cases h : alLookup st.data (some s) with
      | none => simp [drop, h]
      | some ali =>
          cases ht : ali.heapToken with
          | none => simp [drop, h, ht]
          | some t =>
              simp only [drop, h, ht]
              exact ih _

theorem drop_tombstone_sticky : ∀ (seqs : List Int) (st : Store) (t : Nat),
    (alLookup st.entries t).map Entry.seq = some none →
    (alLookup ((drop st seqs).1).entries t).map Entry.seq = some none := by
  intro seqs
  induction seqs with
  | nil => intro st t h; exact h
  | cons s rest ih =>
      intro st t h
      cases hl : alLookup st.data (some s) with
      | none => simpa [drop, hl] using h
      | some ali =>
          cases ht : ali.heapToken with
          | none => simpa [drop, hl, ht] using h
          | some u =>
              simp only [drop, hl, ht]
              apply ih
              rw [alLookup_setSeqNone]
              split_ifs with he
              · cases hx : alLookup st.entries t with
                | none => rw [hx] at h; exact absurd h (by simp)
                | some e =>
                    simp [tombstoneE]
              · exact h

/-! ## Locking lemmas -/

theorem enterLoop_held (f : SerializedFile) :
    ∀ (k a : Nat), enterLoop f true k a = (.error .lockError, a + k) := by
  intro k
  induction k with
  | zero => intro a; rfl
  | succ k ih =>
      intro a
      rw [show a + (k + 1) = (a + 1) + k by omega]
      rw [enterLoop]
      simp only [lock_read_init, if_pos]
      exact ih (a + 1)

/-! ## `drop`: prefix semantics -/

theorem drop_prefix_raises :
    ∀ (pre : List Int) (st : Store) (bad : Int) (rest : List Int),
      pre.Nodup →
      (∀ s ∈ pre, ∃ r t, alLookup st.data (some s) = some r ∧ r.heapToken = some t) →
      alLookup st.data (some bad) = none →
      drop st (pre ++ bad :: rest) = ((drop st pre).1, some .keyError) ∧
      (drop st pre).2 = none := by
  intro pre
  induction pre with
  | nil =>
      intro st bad rest _ _ hbad
      exact ⟨by simp [drop, hbad], rfl⟩
  | cons s pre ih =>
      intro st bad rest hnd hpres hbad
      obtain ⟨r, t, hl, ht⟩ := hpres s (List.mem_cons_self s pre)
      have hsbad : some bad ≠ (some s : Option Int) := by
        intro he
        rw [← he] at hl
        rw [hl] at hbad
        exact Option.noConfusion hbad
      have hnd' := (List.nodup_cons.mp hnd).2
      have hsnotin := (List.nodup_cons.mp hnd).1
      have hstep : ∀ tail, drop st (s :: tail) =
          drop { st with entries := setSeqNone st.entries t,
                         data := alErase st.data (some s) } tail := by
        intro tail
        simp [drop, hl, ht]
      have hpres' : ∀ s' ∈ pre, ∃ r' t',
          alLookup (alErase st.data (some s)) (some s') = some r' ∧
          r'.heapToken = some t' := by
        intro s' hs'
        obtain ⟨r', t', hl', ht'⟩ := hpres s' (List.mem_cons_of_mem s hs')
        have : s' ≠ s := fun he => hsnotin (he ▸ hs')
        exact ⟨r', t', by
          rw [alLookup_alErase_ne st.data (some s) (some s') (by simpa using this)]
          exact hl', ht'⟩
      have hbad' : alLookup (alErase st.data (some s)) (some bad) = none := by
        rw [alLookup_alErase_ne st.data (some s) (some bad) hsbad]
        exact hbad
      have := ih { st with entries := setSeqNone st.entries t,
                           data := alErase st.data (some s) } bad rest hnd' hpres' hbad'
      constructor
      · rw [List.cons_append, hstep, hstep pre]
        exact this.1
      · rw [hstep pre]
        exact this.2

/-! ## `drop`: the all-present case -/

theorem drop_all_present :
    ∀ (seqs : List Int) (st : Store),
      seqs.Nodup →
      (st.data.map Prod.fst).Nodup →
      (∀ s ∈ seqs, ∃ r t e, alLookup st.data (some s) = some r ∧
        r.heapToken = some t ∧ alLookup st.entries t = some e) →
      (drop st seqs).2 = none ∧
      (∀ s ∈ seqs, alLookup ((drop st seqs).1).data (some s) = none) ∧
      (∀ s ∈ seqs, ∀ r t, alLookup st.data (some s) = some r → r.heapToken = some t →
        (alLookup ((drop st seqs).1).entries t).map Entry.seq = some none) ∧
      (∀ k, (∀ s ∈ seqs, some s ≠ k) →
        alLookup ((drop st seqs).1).data k = alLookup st.data k) := by
  intro seqs
  induction seqs with
  | nil =>
      intro st _ _ _
      exact ⟨rfl, by simp, by simp, fun k _ => rfl⟩
  | cons s rest ih =>
      intro st hnd hdk hpres
      obtain ⟨r, t, e, hl, ht, he⟩ := hpres s (List.mem_cons_self s rest)
      have hnd' := (List.nodup_cons.mp hnd).2
      have hsnotin := (List.nodup_cons.mp hnd).1
      set st' : Store := { st with entries := setSeqNone st.entries t,
                                   data := alErase st.data (some s) } with hst'
      have hstep : drop st (s :: rest) = drop st' rest := by
        simp [drop, hl, ht, hst']
      have hdk' : (st'.data.map Prod.fst).Nodup := alErase_keys_nodup _ _ hdk
      have hpres' : ∀ s' ∈ rest, ∃ r' t' e',
          alLookup st'.data (some s') = some r' ∧ r'.heapToken = some t' ∧
          alLookup st'.entries t' = some e' := by
        intro s' hs'
        obtain ⟨r', t', e', hl', ht', he'⟩ := hpres s' (List.mem_cons_of_mem s hs')
        have hne : s' ≠ s := fun heq => hsnotin (heq ▸ hs')
        refine ⟨r', t', if t' = t then tombstoneE e' else e', ?_, ht', ?_⟩
        · simp only [hst']
          rw [alLookup_alErase_ne st.data (some s) (some s') (by simpa using hne)]
          exact hl'
        · simp only [hst']
          rw [alLookup_setSeqNone]
          split_ifs with hh
          · simp [he']
          · simp [he', hh]
      have IH := ih st' hnd' hdk' hpres'
      have herased : alLookup st'.data (some s) = none := by
        simp only [hst']
        exact alLookup_alErase_self st.data (some s) hdk
      refine ⟨?_, ?_, ?_, ?_⟩
      · rw [hstep]; exact IH.1
      · intro s' hs'
        rcases List.mem_cons.mp hs' with rfl | hmem
        · rw [hstep]
          rw [IH.2.2.2 (some s') (fun u hu heq => hsnotin (by
            cases heq
            exact hu))]
          exact herased
        · rw [hstep]
          exact IH.2.1 s' hmem
      · intro s' hs' r' t' hl' ht'
        rcases List.mem_cons.mp hs' with rfl | hmem
        · rw [hl] at hl'
          cases hl'
          rw [ht] at ht'
          cases ht'
          rw [hstep]
          apply drop_tombstone_sticky
          simp only [hst']
          rw [alLookup_setSeqNone]
          simp [he, tombstoneE]
        · rw [hstep]
          have hne : s' ≠ s := fun heq => hsnotin (heq ▸ hmem)
          apply IH.2.2.1 s' hmem r' t'
          · simp only [hst']
            rw [alLookup_alErase_ne st.data (some s) (some s') (by simpa using hne)]
            exact hl'
          · exact ht'
      · intro k hk
        rw [hstep]
        rw [IH.2.2.2 k (fun s' hs' => hk s' (List.mem_cons_of_mem s hs'))]
        simp only [hst']
        exact alLookup_alErase_ne st.data (some s) k (hk s (List.mem_cons_self s rest)).symm


/-! ## Frame lemmas for the reservation operations -/

theorem sameExceptRes_refl (r : Record) : sameExceptRes r r := by
  unfold sameExceptRes
  refine ⟨rfl, rfl, rfl, rfl, rfl, rfl, rfl, rfl, rfl, rfl, rfl, rfl, rfl, rfl⟩

theorem sameExceptRes_trans {a b c : Record}
    (h₁ : sameExceptRes a b) (h₂ : sameExceptRes b c) : sameExceptRes a c := by
  unfold sameExceptRes at *
  exact ⟨h₂.1.trans h₁.1, h₂.2.1.trans h₁.2.1, h₂.2.2.1.trans h₁.2.2.1,
    h₂.2.2.2.1.trans h₁.2.2.2.1, h₂.2.2.2.2.1.trans h₁.2.2.2.2.1,
    h₂.2.2.2.2.2.1.trans h₁.2.2.2.2.2.1,
    h₂.2.2.2.2.2.2.1.trans h₁.2.2.2.2.2.2.1,
    h₂.2.2.2.2.2.2.2.1.trans h₁.2.2.2.2.2.2.2.1,
    h₂.2.2.2.2.2.2.2.2.1.trans h₁.2.2.2.2.2.2.2.2.1,
    h₂.2.2.2.2.2.2.2.2.2.1.trans h₁.2.2.2.2.2.2.2.2.2.1,
    h₂.2.2.2.2.2.2.2.2.2.2.1.trans h₁.2.2.2.2.2.2.2.2.2.2.1,
    h₂.2.2.2.2.2.2.2.2.2.2.2.1.trans h₁.2.2.2.2.2.2.2.2.2.2.2.1,
    h₂.2.2.2.2.2.2.2.2.2.2.2.2.1.trans h₁.2.2.2.2.2.2.2.2.2.2.2.2.1,
    h₂.2.2.2.2.2.2.2.2.2.2.2.2.2.trans h₁.2.2.2.2.2.2.2.2.2.2.2.2.2⟩

theorem sameExceptRes_setRes (r : Record) (x : String) :
    sameExceptRes r { r with res := x } := by
  unfold sameExceptRes
  refine ⟨rfl, rfl, rfl, rfl, rfl, rfl, rfl, rfl, rfl, rfl, rfl, rfl, rfl, rfl⟩

theorem alLookup_mem {K V : Type} [DecidableEq K] :
    ∀ (d : List (K × V)) (k : K) (v : V), alLookup d k = some v → (k, v) ∈ d := by
  intro d
  induction d with
  | nil => intro k v h; exact absurd h (by simp [alLookup])
  | cons p rest ih =>
      intro k v h
      rw [alLookup] at h
      split_ifs at h with hk
      · cases h
        subst hk
        exact List.mem_cons_self _ _
      · exact List.mem_cons_of_mem _ (ih k v h)

theorem alInsert_map_fst_of_lookup {K V : Type} [DecidableEq K] :
    ∀ (d : List (K × V)) (k : K) (v w : V), alLookup d k = some w →
      (alInsert d k v).map Prod.fst = d.map Prod.fst := by
  intro d
  induction d with
  | nil => intro k v w h; exact absurd h (by simp [alLookup])
  | cons p rest ih =>
      intro k v w h
      rw [alLookup] at h
      rw [alInsert]
      split_ifs at h ⊢ with hk
      · simp [hk]
      · simp only [List.map_cons]
        rw [ih k v w h]

theorem reserve_seqs_frame :
    ∀ (seqs : List Int) (st : Store) (name : String),
      ((reserve_seqs st name seqs).1).heap = st.heap ∧
      ((reserve_seqs st name seqs).1).entries = st.entries ∧
      ((reserve_seqs st name seqs).1).next = st.next ∧
      ((reserve_seqs st name seqs).1).resdatetime = st.resdatetime ∧
      ((reserve_seqs st name seqs).1).data.map Prod.fst = st.data.map Prod.fst ∧
      (∀ k, (∀ s ∈ seqs, some s ≠ k) →
        alLookup ((reserve_seqs st name seqs).1).data k = alLookup st.data k) ∧
      (∀ k r', alLookup ((reserve_seqs st name seqs).1).data k = some r' →
        ∃ r, alLookup st.data k = some r ∧ sameExceptRes r r') := by
  intro seqs
  induction seqs with
  | nil =>
      intro st name
      exact ⟨rfl, rfl, rfl, rfl, rfl, fun k _ => rfl,
        fun k r' h => ⟨r', h, sameExceptRes_refl r'⟩⟩
  | cons s rest ih =>
      intro st name
      cases hl : alLookup st.data (some s) with
      | none =>
          have hstep : ((reserve_seqs st name (s :: rest)).1) =
              ((reserve_seqs st name rest).1) := by
            simp [reserve_seqs, hl]
          rw [hstep]
          have IH := ih st name
          exact ⟨IH.1, IH.2.1, IH.2.2.1, IH.2.2.2.1, IH.2.2.2.2.1,
            fun k hk => IH.2.2.2.2.2.1 k (fun u hu => hk u (List.mem_cons_of_mem s hu)),
            IH.2.2.2.2.2.2⟩
      | some ali =>
          by_cases hres : ali.res = ""
          · set st' : Store :=
              { st with data := alInsert st.data (some s) { ali with res := name } }
              with hst'
            have hstep : ((reserve_seqs st name (s :: rest)).1) =
                ((reserve_seqs st' name rest).1) := by
              simp [reserve_seqs, hl, hres, hst']
            rw [hstep]
            have IH := ih st' name
            have hdata' : st'.data = alInsert st.data (some s) { ali with res := name } := rfl
            refine ⟨IH.1, IH.2.1, IH.2.2.1, IH.2.2.2.1, ?_, ?_, ?_⟩
            · rw [IH.2.2.2.2.1, hdata',
                alInsert_map_fst_of_lookup st.data (some s) _ ali hl]
            · intro k hk
              rw [IH.2.2.2.2.2.1 k (fun u hu => hk u (List.mem_cons_of_mem s hu)),
                hdata',
                alLookup_alInsert_ne st.data (some s) k _ (hk s (List.mem_cons_self s rest)).symm]
            · intro k r' h
              obtain ⟨r₁, hl₁, hrel₁⟩ := IH.2.2.2.2.2.2 k r' h
              rw [hdata'] at hl₁
              by_cases hks : k = some s
              · subst hks
                rw [alLookup_alInsert_self] at hl₁
                cases hl₁
                exact ⟨ali, hl, sameExceptRes_trans (sameExceptRes_setRes ali name) hrel₁⟩
              · rw [alLookup_alInsert_ne st.data (some s) k _ hks] at hl₁
                exact ⟨r₁, hl₁, hrel₁⟩
          · have hstep : ((reserve_seqs st name (s :: rest)).1) =
                ((reserve_seqs st name rest).1) := by
              by_cases hmine : name = ali.res
              · simp [reserve_seqs, hl, hres, hmine]
              · simp [reserve_seqs, hl, hres, hmine]
            rw [hstep]
            have IH := ih st name
            exact ⟨IH.1, IH.2.1, IH.2.2.1, IH.2.2.2.1, IH.2.2.2.2.1,
              fun k hk => IH.2.2.2.2.2.1 k (fun u hu => hk u (List.mem_cons_of_mem s hu)),
              IH.2.2.2.2.2.2⟩

theorem unreserve_seqs_frame :
    ∀ (seqs : List Int) (st : Store) (name : String),
      ((unreserve_seqs st name seqs).1).heap = st.heap ∧
      ((unreserve_seqs st name seqs).1).entries = st.entries ∧
      ((unreserve_seqs st name seqs).1).next = st.next ∧
      ((unreserve_seqs st name seqs).1).resdatetime = st.resdatetime ∧
      ((unreserve_seqs st name seqs).1).data.map Prod.fst = st.data.map Prod.fst ∧
      (∀ k, (∀ s ∈ seqs, some s ≠ k) →
        alLookup ((unreserve_seqs st name seqs).1).data k = alLookup st.data k) ∧
      (∀ k r', alLookup ((unreserve_seqs st name seqs).1).data k = some r' →
        ∃ r, alLookup st.data k = some r ∧ sameExceptRes r r') := by
  intro seqs
  induction seqs with
  | nil =>
      intro st name
      exact ⟨rfl, rfl, rfl, rfl, rfl, fun k _ => rfl,
        fun k r' h => ⟨r', h, sameExceptRes_refl r'⟩⟩
  | cons s rest ih =>
      intro st name
      cases hl : alLookup st.data (some s) with
      | none =>
          have hstep : ((unreserve_seqs st name (s :: rest)).1) =
              ((unreserve_seqs st name rest).1) := by
            simp [unreserve_seqs, hl]
          rw [hstep]
          have IH := ih st name
          exact ⟨IH.1, IH.2.1, IH.2.2.1, IH.2.2.2.1, IH.2.2.2.2.1,
            fun k hk => IH.2.2.2.2.2.1 k (fun u hu => hk u (List.mem_cons_of_mem s hu)),
            IH.2.2.2.2.2.2⟩
      | some ali =>
          by_cases hmine : ali.res ≠ "" ∧ name = ali.res
          · set st' : Store :=
              { st with data := alInsert st.data (some s) { ali with res := "" } }
              with hst'
            have hstep : ((unreserve_seqs st name (s :: rest)).1) =
                ((unreserve_seqs st' name rest).1) := by
              simp [unreserve_seqs, hl, hmine.1, hmine.2, hst']
            rw [hstep]
            have IH := ih st' name
            have hdata' : st'.data = alInsert st.data (some s) { ali with res := "" } := rfl
            refine ⟨IH.1, IH.2.1, IH.2.2.1, IH.2.2.2.1, ?_, ?_, ?_⟩
            · rw [IH.2.2.2.2.1, hdata',
                alInsert_map_fst_of_lookup st.data (some s) _ ali hl]
            · intro k hk
              rw [IH.2.2.2.2.2.1 k (fun u hu => hk u (List.mem_cons_of_mem s hu)),
                hdata',
                alLookup_alInsert_ne st.data (some s) k _ (hk s (List.mem_cons_self s rest)).symm]
            · intro k r' h
              obtain ⟨r₁, hl₁, hrel₁⟩ := IH.2.2.2.2.2.2 k r' h
              rw [hdata'] at hl₁
              by_cases hks : k = some s
              · subst hks
                rw [alLookup_alInsert_self] at hl₁
                cases hl₁
                exact ⟨ali, hl, sameExceptRes_trans (sameExceptRes_setRes ali "") hrel₁⟩
              · rw [alLookup_alInsert_ne st.data (some s) k _ hks] at hl₁
                exact ⟨r₁, hl₁, hrel₁⟩
          · have hstep : ((unreserve_seqs st name (s :: rest)).1) =
                ((unreserve_seqs st name rest).1) := by
              by_cases hres : ali.res = ""
              · simp [unreserve_seqs, hl, hres]
              · have hnm : ¬ name = ali.res := fun he => hmine ⟨hres, he⟩
                simp [unreserve_seqs, hl, hres, hnm]
            rw [hstep]
            have IH := ih st name
            exact ⟨IH.1, IH.2.1, IH.2.2.1, IH.2.2.2.1, IH.2.2.2.2.1,
              fun k hk => IH.2.2.2.2.2.1 k (fun u hu => hk u (List.mem_cons_of_mem s hu)),
              IH.2.2.2.2.2.2⟩

/-! ## Serialization lemmas -/

theorem mem_insertSorted {α : Type} (le : α → α → Bool) (x y : α) :
    ∀ l : List α, y ∈ insertSorted le x l ↔ y = x ∨ y ∈ l := by
  intro l
  induction l with
  | nil => simp [insertSorted]
  | cons a rest ih =>
      rw [insertSorted]
      split_ifs with h
      · simp [or_comm, or_assoc, or_left_comm]
      · simp only [List.mem_cons, ih]
        tauto

theorem mem_pySorted {α : Type} (le : α → α → Bool) (y : α) :
    ∀ l : List α, y ∈ pySorted le l ↔ y ∈ l := by
  intro l
  induction l with
  | nil => simp [pySorted]
  | cons a rest ih =>
      rw [pySorted, mem_insertSorted]
      simp [ih]

theorem strAll_ok : ∀ l : List Record, (∀ r ∈ l, isValid r = true) →
    ∃ ss, strAll l = .ok ss := by
  intro l
  induction l with
  | nil => exact fun _ => ⟨[], rfl⟩
  | cons r rest ih =>
      intro h
      obtain ⟨ss, hss⟩ := ih (fun r' hr' => h r' (List.mem_cons_of_mem r hr'))
      refine ⟨(rjust (toString (r.seq.getD 0)) 7 ++ " " ++
        rjust (toString (r.index.getD 0)) 5 ++ ". sz " ++
        rjust (toString (r.size.getD 0)) 3 ++ " " ++ r.factors) :: ss, ?_⟩
      rw [strAll]
      simp only [strRecord, h r (List.mem_cons_self r rest), if_true, hss]

theorem lookup_some_of_mem_keys {K V : Type} [DecidableEq K] :
    ∀ (d : List (K × V)) (k : K), k ∈ d.map Prod.fst →
      ∃ v, alLookup d k = some v := by
  intro d
  induction d with
  | nil => intro k h; exact absurd h (by simp)
  | cons p rest ih =>
      intro k h
      rw [alLookup]
      split_ifs with hk
      · exact ⟨p.2, rfl⟩
      · apply ih
        simp only [List.map_cons, List.mem_cons] at h
        exact h.resolve_left (fun he => hk he.symm)

theorem loadFold_lookup_not_mem :
    ∀ (rows : List Record) (i : Nat) (d : List (Option Int × Record))
      (k : Option Int),
      (∀ r ∈ rows, r.seq ≠ k) →
      alLookup ((List.enumFrom i rows).foldl loadFoldStep d) k = alLookup d k := by
  intro rows
  induction rows with
  | nil => intro i d k _; rfl
  | cons r rest ih =>
      intro i d k h
      rw [List.enumFrom, List.foldl_cons]
      rw [ih (i + 1) _ k (fun r' hr' => h r' (List.mem_cons_of_mem r hr'))]
      show alLookup (alInsert d r.seq { r with heapToken := some i }) k = alLookup d k
      exact alLookup_alInsert_ne d r.seq k _
        (Ne.symm (h r (List.mem_cons_self r rest)))

theorem loadFold_lookup_mem :
    ∀ (rows : List Record) (i : Nat) (d : List (Option Int × Record))
      (k : Option Int) (w : Record),
      (∀ r ∈ rows, r.seq = k → r = w) →
      (∃ r ∈ rows, r.seq = k) →
      ∃ j, alLookup ((List.enumFrom i rows).foldl loadFoldStep d) k =
        some { w with heapToken := some j } := by
  intro rows
  induction rows with
  | nil => intro i d k w _ h; exact absurd h (by simp)
  | cons r rest ih =>
      intro i d k w hall hex
      rw [List.enumFrom, List.foldl_cons]
      by_cases hrest : ∃ r' ∈ rest, r'.seq = k
      · exact ih (i + 1) _ k w
          (fun r' hr' => hall r' (List.mem_cons_of_mem r hr')) hrest
      · obtain ⟨r₀, hr₀, hseq₀⟩ := hex
        have hr0 : r₀ = r := by
          rcases List.mem_cons.mp hr₀ with h | h
          · exact h
          · exact absurd ⟨r₀, h, hseq₀⟩ hrest
        subst hr0
        have hw : r₀ = w := hall r₀ (List.mem_cons_self r₀ rest) hseq₀
        refine ⟨i, ?_⟩
        rw [loadFold_lookup_not_mem rest (i + 1) _ k
          (fun r' hr' he => hrest ⟨r', hr', he⟩)]
        rw [loadFoldStep, hseq₀, ← hw, alLookup_alInsert_self]

theorem loadStore_data_eq (f : SerializedFile) :
    (loadStore f).data = (List.enumFrom 0 f.aaData).foldl loadFoldStep [] := by
  rfl

theorem agree_stripTok_token (r : Record) (j : Nat) :
    agreeIgnoringPrioTime r { stripTok r with heapToken := some j } := by
  unfold agreeIgnoringPrioTime stripTok
  refine ⟨rfl, rfl, rfl, rfl, rfl, rfl, rfl, rfl, rfl, rfl, rfl, rfl⟩

/-- The loaded id map built from written rows agrees with the source map,
for any key list `L` that covers the map's keys. -/
theorem roundtrip_core :
    ∀ (st : Store) (L : List (Option Int)),
      (∀ p ∈ st.data, p.2.seq = p.1) →
      (∀ k, k ∈ st.data.map Prod.fst → k ∈ L) →
      ∀ k, match alLookup ((List.enumFrom 0
              ((L.filterMap (alLookup st.data)).map stripTok)).foldl loadFoldStep []) k,
            alLookup st.data k with
        | some r', some r => agreeIgnoringPrioTime r r'
        | none, none => True
        | _, _ => False := by
  intro st L hW1 hcov k
  cases hk : alLookup st.data k with
  | none =>
      have hno : ∀ row ∈ (L.filterMap (alLookup st.data)).map stripTok,
          row.seq ≠ k := by
        intro row hrow he
        obtain ⟨r₀, hr₀mem, hrow'⟩ := List.mem_map.mp hrow
        obtain ⟨os, _, hlos⟩ := List.mem_filterMap.mp hr₀mem
        have hseq : r₀.seq = os := hW1 (os, r₀) (alLookup_mem _ _ _ hlos)
        have hosk : os = k := by
          rw [← hseq, ← he, ← hrow']
          rfl
        rw [hosk] at hlos
        rw [hk] at hlos
        exact Option.noConfusion hlos
      rw [loadFold_lookup_not_mem _ 0 [] k hno]
      exact trivial
  | some r =>
      have hall : ∀ row ∈ (L.filterMap (alLookup st.data)).map stripTok,
          row.seq = k → row = stripTok r := by
        intro row hrow he
        obtain ⟨r₀, hr₀mem, hrow'⟩ := List.mem_map.mp hrow
        obtain ⟨os, _, hlos⟩ := List.mem_filterMap.mp hr₀mem
        have hseq : r₀.seq = os := hW1 (os, r₀) (alLookup_mem _ _ _ hlos)
        have hosk : os = k := by
          rw [← hseq, ← he, ← hrow']
          rfl
        rw [hosk, hk] at hlos
        cases hlos
        exact hrow'.symm
      have hex : ∃ row ∈ (L.filterMap (alLookup st.data)).map stripTok,
          row.seq = k := by
        have hkmem : k ∈ st.data.map Prod.fst :=
          List.mem_map_of_mem Prod.fst (alLookup_mem st.data k r hk)
        refine ⟨stripTok r, ?_, ?_⟩
        · exact List.mem_map_of_mem stripTok
            (List.mem_filterMap.mpr ⟨k, hcov k hkmem, hk⟩)
        · show r.seq = k
          exact hW1 (k, r) (alLookup_mem _ _ _ hk)
      obtain ⟨j, hj⟩ := loadFold_lookup_mem _ 0 [] k (stripTok r) hall hex
      rw [hj]
      exact agree_stripTok_token r j

theorem filterMap_lookup_map_seq :
    ∀ (A : List (Option Int)) (st : Store), (∀ p ∈ st.data, p.2.seq = p.1) →
      (A.filterMap (alLookup st.data)).map Record.seq =
        A.filter (fun k => (alLookup st.data k).isSome) := by
  intro A
  induction A with
  | nil => intro st _; rfl
  | cons os rest ih =>
      intro st hW1
      rw [List.filterMap_cons, List.filter_cons]
      cases hl : alLookup st.data os with
      | none => simpa using ih st hW1
      | some r =>
          simp only [Option.isSome_some, if_true, List.map_cons]
          rw [ih st hW1, hW1 (os, r) (alLookup_mem _ _ _ hl)]

/-! ## `List.set` and `List.getD` basics -/

theorem getD_set_eq {α : Type} (l : List α) (p : Nat) (v d : α)
    (h : p < l.length) : (l.set p v).getD p d = v := by
  rw [List.getD_eq_getElem _ _ (by simpa using h)]
  exact List.getElem_set_self _

theorem getD_set_ne {α : Type} (l : List α) (p q : Nat) (v d : α)
    (h : q ≠ p) : (l.set p v).getD q d = l.getD q d := by
  induction l generalizing p q with
  | nil => simp [List.set]
  | cons a t ih =>
      cases p with
      | zero =>
          cases q with
          | zero => exact absurd rfl h
          | succ q => simp [List.set]
      | succ p =>
          cases q with
          | zero => simp [List.set]
          | succ q => simpa [List.set] using ih p q (by omega)

theorem set_getD_self {α : Type} (l : List α) (p : Nat) (d : α)
    (h : p < l.length) : l.set p (l.getD p d) = l := by
  induction l generalizing p with
  | nil => rfl
  | cons a t ih =>
      cases p with
      | zero => simp [List.set]
      | succ p =>
          simp only [List.getD_cons_succ, List.set]
          rw [ih p (by simpa using h)]

theorem getD_mem {α : Type} (l : List α) (p : Nat) (d : α)
    (h : p < l.length) : l.getD p d ∈ l := by
  rw [List.getD_eq_getElem _ _ h]
  exact List.getElem_mem h

theorem getD_append_left {α : Type} (l l₂ : List α) (p : Nat) (d : α)
    (h : p < l.length) : (l ++ l₂).getD p d = l.getD p d := by
  rw [List.getD_eq_getElem _ _ (by simp; omega), List.getD_eq_getElem _ _ h]
  exact List.getElem_append_left h

/-! ## Multiset preservation of the `heapq` operations -/

theorem multiset_set {α : Type} :
    ∀ (l : List α) (j : Nat) (x d : α), j < l.length →
      (↑(l.set j x) : Multiset α) + {l.getD j d} = ↑l + {x} := by
  intro l
  induction l with
  | nil => intro j x d h; simp at h
  | cons a t ih =>
      intro j x d h
      cases j with
      | zero =>
          simp only [List.set, List.getD_cons_zero, ← Multiset.cons_coe,
            ← Multiset.singleton_add]
          rw [show ({x} : Multiset α) + ↑t + {a} = {a} + ↑t + {x} from by
            rw [add_comm ({x} : Multiset α) (↑t : Multiset α)]
            rw [add_comm ({a} : Multiset α) (↑t : Multiset α)]
            rw [add_assoc, add_assoc, add_comm ({a} : Multiset α)]]
      | succ j =>
          simp only [List.set, List.getD_cons_succ, ← Multiset.cons_coe,
            Multiset.cons_add]
          rw [ih j x d (by simpa using h)]

theorem multiset_set_set {α : Type} (l : List α) (p q : Nat) (x d : α)
    (hne : p ≠ q) (hp : p < l.length) (hq : q < l.length) :
    (↑((l.set p (l.getD q d)).set q x) : Multiset α) = ↑(l.set p x) := by
  have h1 := multiset_set (l.set p (l.getD q d)) q x d (by simpa using hq)
  rw [getD_set_ne l p q _ d (Ne.symm hne)] at h1
  have h2 := multiset_set l p (l.getD q d) d hp
  have h3 := multiset_set l p x d hp
  have key : (↑((l.set p (l.getD q d)).set q x) : Multiset α) +
      {l.getD q d} + {l.getD p d} =
      ↑(l.set p x) + {l.getD q d} + {l.getD p d} := by
    rw [h1]
    rw [show (↑(l.set p (l.getD q d)) : Multiset α) + {x} + {l.getD p d} =
        ↑(l.set p (l.getD q d)) + {l.getD p d} + {x} from by
      rw [add_assoc, add_assoc, add_comm ({x} : Multiset α)]]
    rw [h2]
    rw [show (↑(l.set p x) : Multiset α) + {l.getD q d} + {l.getD p d} =
        ↑(l.set p x) + {l.getD p d} + {l.getD q d} from by
      rw [add_assoc, add_assoc, add_comm ({l.getD q d} : Multiset α)]]
    rw [h3]
    rw [add_assoc, add_assoc, add_comm ({l.getD q d} : Multiset α)]
  exact add_right_cancel (add_right_cancel key)

theorem siftdownAux_spec (ltb : Nat → Nat → Bool) (newitem : Nat) :
    ∀ (fuel : Nat) (heap : List Nat) (startpos pos : Nat),
      pos ≤ fuel → pos < heap.length →
      (siftdownAux ltb newitem fuel heap startpos pos).2 ≤ pos ∧
      (↑(((siftdownAux ltb newitem fuel heap startpos pos).1).set
          (siftdownAux ltb newitem fuel heap startpos pos).2 newitem) :
        Multiset Nat) = ↑(heap.set pos newitem) := by
  intro fuel
  induction fuel with
  | zero =>
      intro heap startpos pos h1 h2
      have hp : pos = 0 := by omega
      subst hp
      exact ⟨le_refl 0, rfl⟩
  | succ fuel ih =>
      intro heap startpos pos h1 h2
      rw [siftdownAux]
      split_ifs with hg hcmp
      · have hstep := ih (heap.set pos (heap.getD ((pos - 1) / 2) 0)) startpos
          ((pos - 1) / 2) (by omega) (by simp; omega)
        refine ⟨hstep.1.trans (by omega), ?_⟩
        rw [hstep.2]
        exact multiset_set_set heap pos ((pos - 1) / 2) newitem 0
          (by omega) h2 (by omega)
      · exact ⟨le_refl pos, rfl⟩
      · exact ⟨le_refl pos, rfl⟩

theorem siftdown_multiset (ltb : Nat → Nat → Bool) (heap : List Nat)
    (startpos pos : Nat) (h : pos < heap.length) :
    (↑(siftdown ltb heap startpos pos) : Multiset Nat) = ↑heap := by
  show (↑((siftdownAux ltb (heap.getD pos 0) pos heap startpos pos).1.set
    (siftdownAux ltb (heap.getD pos 0) pos heap startpos pos).2
    (heap.getD pos 0)) : Multiset Nat) = ↑heap
  rw [(siftdownAux_spec ltb (heap.getD pos 0) pos heap startpos pos
    (le_refl pos) h).2]
  rw [set_getD_self heap pos 0 h]

theorem pickChild_ge (ltb : Nat → Nat → Bool) (heap : List Nat) (pos : Nat) :
    2 * pos + 1 ≤ pickChild ltb heap pos := by
  unfold pickChild; split <;> omega

theorem pickChild_cases (ltb : Nat → Nat → Bool) (heap : List Nat)
    (pos : Nat) :
    pickChild ltb heap pos = 2 * pos + 1 ∨ pickChild ltb heap pos = 2 * pos + 2 := by
  unfold pickChild; split
  · right; rfl
  · left; rfl

theorem siftupAux_spec (ltb : Nat → Nat → Bool) :
    ∀ (fuel : Nat) (heap : List Nat) (pos : Nat),
      heap.length ≤ fuel + pos → pos < heap.length →
      pos ≤ (siftupAux ltb fuel heap pos).2 ∧
      (siftupAux ltb fuel heap pos).2 < heap.length ∧
      ∀ x : Nat, (↑(((siftupAux ltb fuel heap pos).1).set
          (siftupAux ltb fuel heap pos).2 x) : Multiset Nat) =
        ↑(heap.set pos x) := by
  intro fuel
  induction fuel with
  | zero =>
      intro heap pos h1 h2
      exfalso; omega
  | succ fuel ih =>
      intro heap pos h1 h2
      rw [siftupAux]
      split_ifs with hg
      · have hcgt := pickChild_gt ltb heap pos
        have hcge := pickChild_ge ltb heap pos
        have hclt := @pickChild_lt_length ltb heap pos hg
        have hstep := ih (heap.set pos (heap.getD (pickChild ltb heap pos) 0))
          (pickChild ltb heap pos) (by simp; omega) (by simp; omega)
        simp only [List.length_set] at hstep
        refine ⟨by omega, hstep.2.1, ?_⟩
        intro x
        rw [hstep.2.2 x]
        exact multiset_set_set heap pos (pickChild ltb heap pos) x 0
          (by omega) h2 hclt
      · exact ⟨le_refl pos, h2, fun x => rfl⟩

theorem siftup_multiset (ltb : Nat → Nat → Bool) (heap : List Nat)
    (pos : Nat) (h : pos < heap.length) :
    (↑(siftup ltb heap pos) : Multiset Nat) = ↑heap := by
  obtain ⟨h1, h2, h3⟩ := siftupAux_spec ltb heap.length heap pos (by omega) h
  show (↑(siftdown ltb ((siftupAux ltb heap.length heap pos).1.set
    (siftupAux ltb heap.length heap pos).2 (heap.getD pos 0)) pos
    (siftupAux ltb heap.length heap pos).2) : Multiset Nat) = ↑heap
  rw [siftdown_multiset _ _ _ _ (by
    rw [List.length_set, siftupAux_length]; exact h2)]
  rw [h3 (heap.getD pos 0), set_getD_self heap pos 0 h]

theorem heappush_multiset (ltb : Nat → Nat → Bool) (heap : List Nat)
    (item : Nat) :
    (↑(heappush ltb heap item) : Multiset Nat) = item ::ₘ ↑heap := by
  show (↑(siftdown ltb (heap ++ [item]) 0 heap.length) : Multiset Nat) = _
  rw [siftdown_multiset _ _ _ _ (by simp)]
  rw [show heap ++ [item] = heap ++ [item] from rfl]
  rw [← Multiset.coe_add]
  rw [show (↑[item] : Multiset Nat) = {item} from rfl]
  rw [add_comm, Multiset.singleton_add]

theorem heappop_multiset {ltb : Nat → Nat → Bool} {heap heap' : List Nat}
    {t : Nat} (h : heappop ltb heap = .ok (t, heap')) :
    (↑heap : Multiset Nat) = t ::ₘ ↑heap' := by
  match heap with
  | [] => exact absurd h (by simp [heappop])
  | [x] =>
      simp only [heappop, Except.ok.injEq, Prod.mk.injEq] at h
      rw [← h.1, ← h.2]
      rfl
  | x :: y :: rest =>
      simp only [heappop, Except.ok.injEq, Prod.mk.injEq] at h
      rw [← h.1, ← h.2]
      rw [siftup_multiset _ _ _ (by simp)]
      have hbase := multiset_set ((x :: y :: rest).dropLast) 0
        ((x :: y :: rest).getLast (by simp)) 0 (by simp)
      have hgd : ((x :: y :: rest).dropLast).getD 0 0 = x := by
        rfl
      rw [hgd] at hbase
      have hsplit : (↑(x :: y :: rest) : Multiset Nat) =
          ↑((x :: y :: rest).dropLast) +
            {(x :: y :: rest).getLast (by simp)} := by
        conv_lhs => rw [← List.dropLast_append_getLast
          (l := x :: y :: rest) (by simp)]
        rw [← Multiset.coe_add]
        rfl
      rw [hsplit, ← hbase]
      rw [add_comm, Multiset.singleton_add]

theorem heapifyGo_multiset (ltb : Nat → Nat → Bool) :
    ∀ (i : Nat) (heap : List Nat), i ≤ heap.length →
      (↑(heapifyGo ltb i heap) : Multiset Nat) = ↑heap := by
  intro i
  induction i with
  | zero => intro heap _; rfl
  | succ i ih =>
      intro heap h
      rw [heapifyGo]
      rw [ih (siftup ltb heap i) (by rw [siftup_length]; omega)]
      exact siftup_multiset ltb heap i (by omega)

theorem heapify_multiset (ltb : Nat → Nat → Bool) (heap : List Nat) :
    (↑(heapify ltb heap) : Multiset Nat) = ↑heap :=
  heapifyGo_multiset ltb (heap.length / 2) heap (by omega)

/-! ## The descendant relation -/

theorem Desc_self (s : Nat) : Desc s s = true := by
  rw [Desc]; simp

theorem Desc_ge {s p : Nat} (h : Desc s p = true) : s ≤ p := by
  rw [Desc] at h
  split_ifs at h with h1
  · simp at h; omega
  · omega

theorem Desc_parent {s p : Nat} (h : Desc s p = true) (hne : p ≠ s) :
    Desc s ((p - 1) / 2) = true := by
  rw [Desc] at h
  split_ifs at h with h1
  · simp at h; exact absurd h hne
  · exact h

theorem Desc_zero : ∀ p, Desc 0 p = true := by
  suffices key : ∀ N p, p < N → Desc 0 p = true by
    intro p; exact key (p + 1) p (by omega)
  intro N
  induction N with
  | zero => intro p h; omega
  | succ N ih =>
      intro p h
      rw [Desc]
      split_ifs with h1
      · simp; omega
      · exact ih ((p - 1) / 2) (by omega)

theorem Desc_child {s p : Nat} (h : Desc s p = true) (c : Nat)
    (hc : c = 2 * p + 1 ∨ c = 2 * p + 2) : Desc s c = true := by
  have hs := Desc_ge h
  rw [Desc]
  split_ifs with h1
  · omega
  · have hpar : (c - 1) / 2 = p := by omega
    rw [hpar]; exact h

/-! ## The heap property through the `heapq` operations

Each lemma is parametric in the boolean comparison `ltb` and a relation `R`
connected to it by the two bridge hypotheses (any comparison outcome yields
an `R` fact) and transitivity — the store instantiates them with `mkLt es`
and `tokLe es`. -/

theorem siftdownAux_stop (R : Nat → Nat → Prop) (m : List Nat)
    (sp q newitem : Nat) (hq : q < m.length)
    (hb : ∀ c, 0 < c → c < m.length → sp ≤ (c - 1) / 2 → c ≠ q →
      (c - 1) / 2 ≠ q → R (m.getD ((c - 1) / 2) 0) (m.getD c 0))
    (hc : ∀ c, (c = 2 * q + 1 ∨ c = 2 * q + 2) → c < m.length →
      R newitem (m.getD c 0))
    (hp : sp < q → R (m.getD ((q - 1) / 2) 0) newitem) :
    IsHeapFrom R (m.set q newitem) sp := by
  intro c hc0 hcn hsp
  rw [List.length_set] at hcn
  by_cases hceq : c = q
  · subst hceq
    rw [getD_set_ne m c ((c - 1) / 2) newitem 0 (by omega),
      getD_set_eq m c newitem 0 hq]
    exact hp (by omega)
  · by_cases hpeq : (c - 1) / 2 = q
    · rw [hpeq, getD_set_eq m q newitem 0 hq,
        getD_set_ne m q c newitem 0 hceq]
      exact hc c (by omega) hcn
    · rw [getD_set_ne m q ((c - 1) / 2) newitem 0 hpeq,
        getD_set_ne m q c newitem 0 hceq]
      exact hb c hc0 hcn hsp hceq hpeq

theorem siftdownAux_heap (ltb : Nat → Nat → Bool) (R : Nat → Nat → Prop)
    (hbr1 : ∀ a b, ltb a b = true → R a b)
    (hbr2 : ∀ a b, ltb a b = false → R b a)
    (htrans : ∀ a b c, R a b → R b c → R a c)
    (newitem sp : Nat) :
    ∀ (fuel : Nat) (m : List Nat) (q : Nat), q ≤ fuel →
      sp ≤ q → q < m.length → Desc sp q = true →
      (∀ c, 0 < c → c < m.length → sp ≤ (c - 1) / 2 → c ≠ q →
        (c - 1) / 2 ≠ q → R (m.getD ((c - 1) / 2) 0) (m.getD c 0)) →
      (∀ c, (c = 2 * q + 1 ∨ c = 2 * q + 2) → c < m.length →
        R newitem (m.getD c 0)) →
      (sp < q → ∀ c, (c = 2 * q + 1 ∨ c = 2 * q + 2) → c < m.length →
        R (m.getD ((q - 1) / 2) 0) (m.getD c 0)) →
      IsHeapFrom R
        (((siftdownAux ltb newitem fuel m sp q).1).set
          (siftdownAux ltb newitem fuel m sp q).2 newitem) sp := by
  intro fuel
  induction fuel with
  | zero =>
      intro m q hf hspq hq hdesc hb hc hd
      have hq0 : q = 0 := by omega
      subst hq0
      show IsHeapFrom R (m.set 0 newitem) sp
      exact siftdownAux_stop R m sp 0 newitem hq hb hc (by omega)
  | succ fuel ih =>
      intro m q hf hspq hq hdesc hb hc hd
      rw [siftdownAux]
      split_ifs with h1 h2
      · -- continue: move the parent down, recurse at the parent position
        have hq1 : 1 ≤ q := by omega
        have hdesc' : Desc sp ((q - 1) / 2) = true :=
          Desc_parent hdesc (by omega)
        have hsp' : sp ≤ (q - 1) / 2 := Desc_ge hdesc'
        apply ih (m.set q (m.getD ((q - 1) / 2) 0)) ((q - 1) / 2)
          (by omega) hsp' (by simp; omega) hdesc'
        · -- (b) for the moved array, hole now at the parent
          intro c hc0 hcn hspc hne1 hne2
          rw [List.length_set] at hcn
          by_cases hcq : c = q
          · exact absurd (by rw [hcq]) hne2
          · by_cases hpq : (c - 1) / 2 = q
            · rw [hpq, getD_set_eq m q _ 0 hq,
                getD_set_ne m q c _ 0 hcq]
              exact hd h1 c (by omega) hcn
            · rw [getD_set_ne m q ((c - 1) / 2) _ 0 hpq,
                getD_set_ne m q c _ 0 hcq]
              exact hb c hc0 hcn hspc hcq hpq
        · -- (c): newitem is below both children of the new hole
          intro c hch hcn
          rw [List.length_set] at hcn
          by_cases hcq : c = q
          · rw [hcq, getD_set_eq m q _ 0 hq]
            exact hbr1 _ _ h2
          · rw [getD_set_ne m q c _ 0 hcq]
            have hstep : R (m.getD ((q - 1) / 2) 0) (m.getD c 0) := by
              have hpar : (c - 1) / 2 = (q - 1) / 2 := by omega
              have := hb c (by omega) hcn (by omega) hcq (by omega)
              rwa [hpar] at this
            exact htrans _ _ _ (hbr1 _ _ h2) hstep
        · -- (d): the new hole's children are above its parent
          intro hlt c hch hcn
          rw [List.length_set] at hcn
          have hq'1 : 1 ≤ (q - 1) / 2 := by omega
          have hgp : ((q - 1) / 2 - 1) / 2 ≠ q := by omega
          rw [getD_set_ne m q (((q - 1) / 2 - 1) / 2) _ 0 hgp]
          have hspgp : sp ≤ ((q - 1) / 2 - 1) / 2 :=
            Desc_ge (Desc_parent hdesc' (by omega))
          have hedge1 : R (m.getD (((q - 1) / 2 - 1) / 2) 0)
              (m.getD ((q - 1) / 2) 0) :=
            hb ((q - 1) / 2) (by omega) (by omega) hspgp (by omega) (by omega)
          by_cases hcq : c = q
          · rw [hcq, getD_set_eq m q _ 0 hq]
            exact hedge1
          · rw [getD_set_ne m q c _ 0 hcq]
            have hedge2 : R (m.getD ((q - 1) / 2) 0) (m.getD c 0) := by
              have hpar : (c - 1) / 2 = (q - 1) / 2 := by omega
              have := hb c (by omega) hcn (by omega) hcq (by omega)
              rwa [hpar] at this
            exact htrans _ _ _ hedge1 hedge2
      · -- stop: newitem is not below the parent
        exact siftdownAux_stop R m sp q newitem hq hb hc
          (fun _ => hbr2 _ _ (by simpa using h2))
      · -- stop: the hole reached startpos
        exact siftdownAux_stop R m sp q newitem hq hb hc
          (fun h => absurd h h1)

theorem pickChild_min (ltb : Nat → Nat → Bool) (R : Nat → Nat → Prop)
    (hbr1 : ∀ a b, ltb a b = true → R a b)
    (hbr2 : ∀ a b, ltb a b = false → R b a)
    (m : List Nat) (q : Nat) (c : Nat)
    (hc : c = 2 * q + 1 ∨ c = 2 * q + 2) (hcn : c < m.length)
    (hne : c ≠ pickChild ltb m q) :
    R (m.getD (pickChild ltb m q) 0) (m.getD c 0) := by
  unfold pickChild at *
  split_ifs at * with hs
  · -- the right child was chosen, so c is the left child
    have hcl : c = 2 * q + 1 := by omega
    subst hcl
    exact hbr2 _ _ (by simpa using hs.2)
  · -- the left child was chosen, so c is the right child (and it exists)
    have hcr : c = 2 * q + 2 := by omega
    subst hcr
    have hltb : ltb (m.getD (2 * q + 1) 0) (m.getD (2 * q + 2) 0) = true := by
      rcases Bool.eq_false_or_eq_true
        (ltb (m.getD (2 * q + 1) 0) (m.getD (2 * q + 2) 0)) with ht | hf
      · exact ht
      · exact absurd ⟨hcn, by rw [hf]; exact Bool.false_ne_true⟩ hs
    exact hbr1 _ _ hltb

theorem siftupAux_heap (ltb : Nat → Nat → Bool) (R : Nat → Nat → Prop)
    (hbr1 : ∀ a b, ltb a b = true → R a b)
    (hbr2 : ∀ a b, ltb a b = false → R b a)
    (htrans : ∀ a b c, R a b → R b c → R a c)
    (sp : Nat) :
    ∀ (fuel : Nat) (m : List Nat) (q : Nat), m.length ≤ fuel + q →
      sp ≤ q → q < m.length → Desc sp q = true →
      (∀ c, 0 < c → c < m.length → sp ≤ (c - 1) / 2 → c ≠ q →
        (c - 1) / 2 ≠ q → R (m.getD ((c - 1) / 2) 0) (m.getD c 0)) →
      (sp < q → ∀ c, (c = 2 * q + 1 ∨ c = 2 * q + 2) → c < m.length →
        R (m.getD ((q - 1) / 2) 0) (m.getD c 0)) →
      sp ≤ (siftupAux ltb fuel m q).2 ∧
      (siftupAux ltb fuel m q).2 < m.length ∧
      Desc sp (siftupAux ltb fuel m q).2 = true ∧
      ¬ (2 * (siftupAux ltb fuel m q).2 + 1 < m.length) ∧
      (∀ c, 0 < c → c < m.length → sp ≤ (c - 1) / 2 →
        c ≠ (siftupAux ltb fuel m q).2 → (c - 1) / 2 ≠ (siftupAux ltb fuel m q).2 →
        R (((siftupAux ltb fuel m q).1).getD ((c - 1) / 2) 0)
          (((siftupAux ltb fuel m q).1).getD c 0)) ∧
      (sp < (siftupAux ltb fuel m q).2 →
        ∀ c, (c = 2 * (siftupAux ltb fuel m q).2 + 1 ∨
              c = 2 * (siftupAux ltb fuel m q).2 + 2) → c < m.length →
        R (((siftupAux ltb fuel m q).1).getD
            (((siftupAux ltb fuel m q).2 - 1) / 2) 0)
          (((siftupAux ltb fuel m q).1).getD c 0)) := by
  intro fuel
  induction fuel with
  | zero =>
      intro m q hf hspq hq hdesc hb hd
      exfalso; omega
  | succ fuel ih =>
      intro m q hf hspq hq hdesc hb hd
      rw [siftupAux]
      split_ifs with hg
      · have hcgt := pickChild_gt ltb m q
        have hcge := pickChild_ge ltb m q
        have hclt := @pickChild_lt_length ltb m q hg
        have H := ih (m.set q (m.getD (pickChild ltb m q) 0))
          (pickChild ltb m q) (by simp; omega) (by omega) (by simp; omega)
          (Desc_child hdesc _ (pickChild_cases ltb m q)) ?hb ?hd
        case hb =>
          intro c hc0 hcn hspc hne1 hne2
          rw [List.length_set] at hcn
          by_cases hcq : c = q
          · -- the edge into the old hole: use (d), or note q = sp is impossible
            subst hcq
            have hlt : sp < c := by omega
            rw [getD_set_ne m c ((c - 1) / 2) _ 0 (by omega),
              getD_set_eq m c _ 0 hq]
            exact hd hlt (pickChild ltb m c) (pickChild_cases ltb m c) hclt
          · by_cases hpq : (c - 1) / 2 = q
            · -- c is the sibling of the chosen child
              have hch : c = 2 * q + 1 ∨ c = 2 * q + 2 := by omega
              rw [hpq, getD_set_eq m q _ 0 hq,
                getD_set_ne m q c _ 0 hcq]
              exact pickChild_min ltb R hbr1 hbr2 m q c hch hcn hne1
            · rw [getD_set_ne m q ((c - 1) / 2) _ 0 hpq,
                getD_set_ne m q c _ 0 hcq]
              exact hb c hc0 hcn hspc hcq hpq
        case hd =>
          intro _ c hch hcn
          rw [List.length_set] at hcn
          have hpar : (pickChild ltb m q - 1) / 2 = q := by
            rcases pickChild_cases ltb m q with h | h <;> omega
          rw [hpar, getD_set_eq m q _ 0 hq,
            getD_set_ne m q c _ 0 (by omega)]
          -- the grandchild edge in the original array
          have hcpar : (c - 1) / 2 = pickChild ltb m q := by omega
          have := hb c (by omega) hcn (by omega) (by omega) (by
            rw [hcpar]; omega)
          rwa [hcpar] at this
        simp only [List.length_set] at H
        exact H
      · exact ⟨hspq, hq, hdesc, hg, hb, hd⟩

theorem siftup_heap (ltb : Nat → Nat → Bool) (R : Nat → Nat → Prop)
    (hbr1 : ∀ a b, ltb a b = true → R a b)
    (hbr2 : ∀ a b, ltb a b = false → R b a)
    (htrans : ∀ a b c, R a b → R b c → R a c)
    (m : List Nat) (pos : Nat) (hpos : pos < m.length)
    (hheap : IsHeapFrom R m (pos + 1)) :
    IsHeapFrom R (siftup ltb m pos) pos := by
  obtain ⟨h1, h2, h3, h4, h5, h6⟩ := siftupAux_heap ltb R hbr1 hbr2 htrans
    pos m.length m pos (by omega) (le_refl pos) hpos (Desc_self pos)
    (fun c hc0 hcn hspc hne1 hne2 => hheap c hc0 hcn (by omega))
    (fun h => absurd h (by omega))
  have hlen : ((siftupAux ltb m.length m pos).1).length = m.length :=
    siftupAux_length ltb m.length m pos
  show IsHeapFrom R (siftdown ltb ((siftupAux ltb m.length m pos).1.set
    (siftupAux ltb m.length m pos).2 (m.getD pos 0)) pos
    (siftupAux ltb m.length m pos).2) pos
  have hni : ((siftupAux ltb m.length m pos).1.set
      (siftupAux ltb m.length m pos).2 (m.getD pos 0)).getD
      (siftupAux ltb m.length m pos).2 0 = m.getD pos 0 :=
    getD_set_eq _ _ _ 0 (by rw [hlen]; exact h2)
  show IsHeapFrom R ((siftdownAux ltb (((siftupAux ltb m.length m pos).1.set
      (siftupAux ltb m.length m pos).2 (m.getD pos 0)).getD
      (siftupAux ltb m.length m pos).2 0) (siftupAux ltb m.length m pos).2
      ((siftupAux ltb m.length m pos).1.set
        (siftupAux ltb m.length m pos).2 (m.getD pos 0)) pos
      (siftupAux ltb m.length m pos).2).1.set
    (siftdownAux ltb (((siftupAux ltb m.length m pos).1.set
      (siftupAux ltb m.length m pos).2 (m.getD pos 0)).getD
      (siftupAux ltb m.length m pos).2 0) (siftupAux ltb m.length m pos).2
      ((siftupAux ltb m.length m pos).1.set
        (siftupAux ltb m.length m pos).2 (m.getD pos 0)) pos
      (siftupAux ltb m.length m pos).2).2
    (((siftupAux ltb m.length m pos).1.set
      (siftupAux ltb m.length m pos).2 (m.getD pos 0)).getD
      (siftupAux ltb m.length m pos).2 0)) pos
  apply siftdownAux_heap ltb R hbr1 hbr2 htrans _ pos
    (siftupAux ltb m.length m pos).2
    ((siftupAux ltb m.length m pos).1.set
      (siftupAux ltb m.length m pos).2 (m.getD pos 0))
    (siftupAux ltb m.length m pos).2 (le_refl _) h1
    (by rw [List.length_set, hlen]; exact h2) h3
  · -- (b): edges away from the hole are as in the post-descent array
    intro c hc0 hcn hspc hne1 hne2
    rw [List.length_set, hlen] at hcn
    rw [getD_set_ne _ _ _ _ 0 hne2, getD_set_ne _ _ _ _ 0 hne1]
    exact h5 c hc0 hcn hspc hne1 hne2
  · -- (c): the hole is a leaf, so it has no children in range
    intro c hch hcn
    rw [List.length_set, hlen] at hcn
    exfalso
    rcases hch with h | h <;> omega
  · -- (d): likewise vacuous
    intro _ c hch hcn
    rw [List.length_set, hlen] at hcn
    exfalso
    rcases hch with h | h <;> omega

theorem heapifyGo_heap (ltb : Nat → Nat → Bool) (R : Nat → Nat → Prop)
    (hbr1 : ∀ a b, ltb a b = true → R a b)
    (hbr2 : ∀ a b, ltb a b = false → R b a)
    (htrans : ∀ a b c, R a b → R b c → R a c) :
    ∀ (i : Nat) (heap : List Nat), 2 * i ≤ heap.length →
      IsHeapFrom R heap i → IsHeapFrom R (heapifyGo ltb i heap) 0 := by
  intro i
  induction i with
  | zero => intro heap _ h; exact h
  | succ i ih =>
      intro heap hlen hheap
      rw [heapifyGo]
      apply ih
      · rw [siftup_length]; omega
      · exact siftup_heap ltb R hbr1 hbr2 htrans heap i (by omega) hheap

theorem heapify_heap (ltb : Nat → Nat → Bool) (R : Nat → Nat → Prop)
    (hbr1 : ∀ a b, ltb a b = true → R a b)
    (hbr2 : ∀ a b, ltb a b = false → R b a)
    (htrans : ∀ a b c, R a b → R b c → R a c)
    (heap : List Nat) :
    IsHeapFrom R (heapify ltb heap) 0 := by
  apply heapifyGo_heap ltb R hbr1 hbr2 htrans (heap.length / 2) heap (by omega)
  intro c hc0 hcn hsp
  exfalso
  omega

theorem heappush_heap (ltb : Nat → Nat → Bool) (R : Nat → Nat → Prop)
    (hbr1 : ∀ a b, ltb a b = true → R a b)
    (hbr2 : ∀ a b, ltb a b = false → R b a)
    (htrans : ∀ a b c, R a b → R b c → R a c)
    (heap : List Nat) (item : Nat)
    (hheap : IsHeapFrom R heap 0) :
    IsHeapFrom R (heappush ltb heap item) 0 := by
  show IsHeapFrom R ((siftdownAux ltb ((heap ++ [item]).getD heap.length 0)
      heap.length (heap ++ [item]) 0 heap.length).1.set
    (siftdownAux ltb ((heap ++ [item]).getD heap.length 0)
      heap.length (heap ++ [item]) 0 heap.length).2
    ((heap ++ [item]).getD heap.length 0)) 0
  apply siftdownAux_heap ltb R hbr1 hbr2 htrans _ 0 heap.length
    (heap ++ [item]) heap.length (le_refl _) (Nat.zero_le _)
    (by simp) (Desc_zero _)
  · intro c hc0 hcn hsp hne1 hne2
    simp only [List.length_append, List.length_cons, List.length_nil] at hcn
    have hclt : c < heap.length := by omega
    rw [getD_append_left heap [item] _ 0 (by omega),
      getD_append_left heap [item] _ 0 hclt]
    exact hheap c hc0 hclt (Nat.zero_le _)
  · intro c hch hcn
    simp only [List.length_append, List.length_cons, List.length_nil] at hcn
    exfalso
    rcases hch with h | h <;> omega
  · intro _ c hch hcn
    simp only [List.length_append, List.length_cons, List.length_nil] at hcn
    exfalso
    rcases hch with h | h <;> omega

theorem heap_root_le (ltb : Nat → Nat → Bool) (R : Nat → Nat → Prop)
    (hbr1 : ∀ a b, ltb a b = true → R a b)
    (hbr2 : ∀ a b, ltb a b = false → R b a)
    (htrans : ∀ a b c, R a b → R b c → R a c)
    (l : List Nat) (hheap : IsHeapFrom R l 0) :
    ∀ u ∈ l, R (l.getD 0 0) u := by
  have hrefl : ∀ a, R a a := by
    intro a
    rcases Bool.eq_false_or_eq_true (ltb a a) with h | h
    · exact hbr1 _ _ h
    · exact hbr2 _ _ h
  have key : ∀ N i, i < N → i < l.length → R (l.getD 0 0) (l.getD i 0) := by
    intro N
    induction N with
    | zero => intro i h; omega
    | succ N ihN =>
        intro i hN hi
        by_cases h0 : i = 0
        · subst h0; exact hrefl _
        · have hedge := hheap i (by omega) hi (Nat.zero_le _)
          have hpar := ihN ((i - 1) / 2) (by omega) (by omega)
          exact htrans _ _ _ hpar hedge
  intro u hu
  obtain ⟨i, hi, hui⟩ := List.mem_iff_getElem.mp hu
  have : l.getD i 0 = u := by rw [List.getD_eq_getElem _ _ hi, hui]
  rw [← this]
  exact key (i + 1) i (by omega) hi

theorem getD_dropLast {α : Type} (l : List α) (i : Nat) (d : α)
    (h : i < l.length - 1) : l.dropLast.getD i d = l.getD i d := by
  have h1 : i < l.dropLast.length := by rw [List.length_dropLast]; omega
  have h2 : i < l.length := by omega
  rw [List.getD_eq_getElem _ _ h1, List.getD_eq_getElem _ _ h2]
  exact List.getElem_dropLast l i h1

theorem heappop_heap (ltb : Nat → Nat → Bool) (R : Nat → Nat → Prop)
    (hbr1 : ∀ a b, ltb a b = true → R a b)
    (hbr2 : ∀ a b, ltb a b = false → R b a)
    (htrans : ∀ a b c, R a b → R b c → R a c)
    {heap heap' : List Nat} {t : Nat}
    (hheap : IsHeapFrom R heap 0)
    (h : heappop ltb heap = .ok (t, heap')) :
    IsHeapFrom R heap' 0 ∧ ∀ u ∈ heap, R t u := by
  match heap with
  | [] => exact absurd h (by simp [heappop])
  | [x] =>
      simp only [heappop, Except.ok.injEq, Prod.mk.injEq] at h
      obtain ⟨h1, h2⟩ := h
      refine ⟨?_, ?_⟩
      · intro c hc0 hcn
        rw [← h2] at hcn
        simp at hcn
      · intro u hu
        simp at hu
        rw [hu, ← h1]
        rcases Bool.eq_false_or_eq_true (ltb x x) with hc | hc
        · exact hbr1 _ _ hc
        · exact hbr2 _ _ hc
  | x :: y :: rest =>
      simp only [heappop, Except.ok.injEq, Prod.mk.injEq] at h
      obtain ⟨h1, h2⟩ := h
      constructor
      · rw [← h2]
        apply siftup_heap ltb R hbr1 hbr2 htrans _ 0 (by simp)
        intro c hc0 hcn hsp
        rw [List.length_set, List.length_dropLast] at hcn
        simp only [List.length_cons] at hcn
        have hp1 : 1 ≤ (c - 1) / 2 := hsp
        rw [getD_set_ne _ _ _ _ 0 (by omega), getD_set_ne _ _ _ _ 0 (by omega)]
        rw [getD_dropLast _ _ 0 (by simp; omega),
          getD_dropLast _ _ 0 (by simp; omega)]
        exact hheap c hc0 (by simp; omega) (Nat.zero_le _)
      · intro u hu
        have hroot : ((x :: y :: rest) : List Nat).getD 0 0 = t := by
          rw [← h1]; rfl
        rw [← hroot]
        exact heap_root_le ltb R hbr1 hbr2 htrans _ hheap u hu

/-! ## The entry table through the store operations -/

theorem keyOf_alInsert_self (es : List (Nat × Entry)) (t : Nat) (e : Entry) :
    keyOf (alInsert es t e) t = e := by
  unfold keyOf
  rw [alLookup_alInsert_self]
  rfl

theorem keyOf_alInsert_ne (es : List (Nat × Entry)) (t : Nat) (e : Entry)
    (u : Nat) (h : u ≠ t) : keyOf (alInsert es t e) u = keyOf es u := by
  unfold keyOf
  rw [alLookup_alInsert_ne es t u e h]

theorem keyOf_setSeqNone_prio (es : List (Nat × Entry)) (t u : Nat) :
    (keyOf (setSeqNone es t) u).prio = (keyOf es u).prio := by
  unfold keyOf
  rw [alLookup_setSeqNone]
  split_ifs with h
  · cases alLookup es u <;> rfl
  · rfl

theorem keyOf_setSeqNone_time (es : List (Nat × Entry)) (t u : Nat) :
    (keyOf (setSeqNone es t) u).time = (keyOf es u).time := by
  unfold keyOf
  rw [alLookup_setSeqNone]
  split_ifs with h
  · cases alLookup es u <;> rfl
  · rfl

theorem keyOf_setSeqNone_ne (es : List (Nat × Entry)) (t u : Nat)
    (h : u ≠ t) : keyOf (setSeqNone es t) u = keyOf es u := by
  unfold keyOf
  rw [alLookup_setSeqNone]
  simp [h]

theorem keyOf_setSeqNone_self_seq (es : List (Nat × Entry)) (t : Nat) :
    (keyOf (setSeqNone es t) t).seq = none := by
  unfold keyOf
  rw [alLookup_setSeqNone]
  simp only [if_pos rfl]
  cases alLookup es t <;> rfl

theorem tokLe_setSeqNone (es : List (Nat × Entry)) (t a b : Nat) :
    tokLe (setSeqNone es t) a b ↔ tokLe es a b := by
  unfold tokLe key2le
  rw [keyOf_setSeqNone_prio, keyOf_setSeqNone_prio,
    keyOf_setSeqNone_time, keyOf_setSeqNone_time]

theorem tokLe_of_mkLt {es : List (Nat × Entry)} {a b : Nat}
    (h : mkLt es a b = true) : tokLe es a b :=
  key2le_of_entryLtB h

theorem tokLe_of_not_mkLt {es : List (Nat × Entry)} {a b : Nat}
    (h : mkLt es a b = false) : tokLe es b a :=
  key2le_of_not_entryLtB h

theorem tokLe_trans (es : List (Nat × Entry)) (a b c : Nat)
    (h₁ : tokLe es a b) (h₂ : tokLe es b c) : tokLe es a c :=
  key2le_trans h₁ h₂

theorem IsHeapFrom_congr {R R' : Nat → Nat → Prop} {l : List Nat} {s : Nat}
    (h : IsHeapFrom R l s)
    (hRR : ∀ a ∈ l, ∀ b ∈ l, R a b → R' a b) :
    IsHeapFrom R' l s := by
  intro c hc0 hcn hsp
  exact hRR _ (getD_mem l ((c - 1) / 2) 0 (by omega)) _
    (getD_mem l c 0 hcn) (h c hc0 hcn hsp)

/-! ## More association-list lemmas -/

theorem mem_alInsert {K V : Type} [DecidableEq K] :
    ∀ (d : List (K × V)) (k : K) (v : V) (p : K × V),
      p ∈ alInsert d k v → p = (k, v) ∨ p ∈ d := by
  intro d
  induction d with
  | nil =>
      intro k v p h
      simp [alInsert] at h
      exact Or.inl h
  | cons q rest ih =>
      intro k v p h
      rw [alInsert] at h
      split_ifs at h with hk
      · rcases List.mem_cons.mp h with h | h
        · exact Or.inl h
        · exact Or.inr (List.mem_cons_of_mem q h)
      · rcases List.mem_cons.mp h with h | h
        · exact Or.inr (by simp [h])
        · rcases ih k v p h with h | h
          · exact Or.inl h
          · exact Or.inr (List.mem_cons_of_mem q h)

theorem mem_of_mem_alErase {K V : Type} [DecidableEq K] :
    ∀ (d : List (K × V)) (k : K) (p : K × V),
      p ∈ alErase d k → p ∈ d := by
  intro d
  induction d with
  | nil => intro k p h; exact absurd h (by simp [alErase])
  | cons q rest ih =>
      intro k p h
      rw [alErase] at h
      split_ifs at h with hk
      · exact List.mem_cons_of_mem q h
      · rcases List.mem_cons.mp h with h | h
        · exact List.mem_cons.mpr (Or.inl h)
        · exact List.mem_cons_of_mem q (ih k p h)

theorem not_mem_keys_of_lookup_none {K V : Type} [DecidableEq K]
    (d : List (K × V)) (k : K) (h : alLookup d k = none) :
    k ∉ d.map Prod.fst := by
  intro hmem
  obtain ⟨v, hv⟩ := lookup_some_of_mem_keys d k hmem
  rw [h] at hv
  exact Option.noConfusion hv

theorem alInsert_keys_not_mem {K V : Type} [DecidableEq K] :
    ∀ (d : List (K × V)) (k : K) (v : V), k ∉ d.map Prod.fst →
      (alInsert d k v).map Prod.fst = d.map Prod.fst ++ [k] := by
  intro d
  induction d with
  | nil => intro k v _; rfl
  | cons q rest ih =>
      intro k v h
      simp only [List.map_cons, List.mem_cons] at h
      rw [alInsert]
      split_ifs with hk
      · exact absurd hk.symm (fun he => h (Or.inl he))
      · simp only [List.map_cons, List.cons_append]
        rw [ih k v (fun hm => h (Or.inr hm))]

/-! ## `WFcore` is established by loading and preserved by the operations -/

theorem push_WF (st : Store) (ali : Record) (k : Int)
    (hseq : ali.seq = some k)
    (hfresh : alLookup st.data (some k) = none)
    (hwf : WFcore st) :
    WFcore (push_new_info st ali) ∧
      (keyLive st → keyLive (push_new_info st ali)) := by
  have hheap : (push_new_info st ali).heap =
      heappush (mkLt (alInsert st.entries st.next (makeHeapEntry ali)))
        st.heap st.next := rfl
  have hdata : (push_new_info st ali).data =
      alInsert st.data ali.seq { ali with heapToken := some st.next } := rfl
  have hent : (push_new_info st ali).entries =
      alInsert st.entries st.next (makeHeapEntry ali) := rfl
  have hnext : (push_new_info st ali).next = st.next + 1 := rfl
  have hperm : (heappush (mkLt (alInsert st.entries st.next (makeHeapEntry ali)))
      st.heap st.next).Perm (st.next :: st.heap) := by
    apply Multiset.coe_eq_coe.mp
    rw [heappush_multiset]
    rw [Multiset.cons_coe]
  have hmem' : ∀ u, u ∈ (push_new_info st ali).heap ↔
      (u = st.next ∨ u ∈ st.heap) := by
    intro u
    rw [hheap, hperm.mem_iff, List.mem_cons]
  have hnotin : st.next ∉ st.heap := fun hmem =>
    absurd (hwf.heapTok st.next hmem) (by omega)
  have hkeyOf : ∀ u < st.next,
      keyOf (alInsert st.entries st.next (makeHeapEntry ali)) u =
        keyOf st.entries u := by
    intro u hu
    exact keyOf_alInsert_ne st.entries st.next (makeHeapEntry ali) u (by omega)
  constructor
  · constructor
    · -- heapNodup
      rw [hheap, hperm.nodup_iff]
      exact List.nodup_cons.mpr ⟨hnotin, hwf.heapNodup⟩
    · -- heapTok
      intro t ht
      rw [hnext]
      rcases (hmem' t).mp ht with h | h
      · omega
      · have := hwf.heapTok t h; omega
    · -- entTok
      intro p hp
      rw [hent] at hp
      rw [hnext]
      rcases mem_alInsert st.entries st.next (makeHeapEntry ali) p hp with h | h
      · rw [h]; omega
      · have := hwf.entTok p h; omega
    · -- dataW1
      intro p hp
      rw [hdata] at hp
      rcases mem_alInsert st.data ali.seq
        { ali with heapToken := some st.next } p hp with h | h
      · rw [h]
      · exact hwf.dataW1 p h
    · -- dataNodup
      rw [hdata, hseq, alInsert_keys_not_mem st.data (some k) _
        (not_mem_keys_of_lookup_none st.data (some k) hfresh)]
      simp only [List.nodup_append, List.nodup_cons, List.nodup_nil]
      refine ⟨hwf.dataNodup, by simp, ?_⟩
      intro a ha hb
      simp only [List.mem_singleton] at hb
      subst hb
      exact not_mem_keys_of_lookup_none st.data (some k) hfresh ha
    · -- live
      intro t ht k' hk'
      rw [hent] at hk'
      rw [hent, hdata]
      rcases (hmem' t).mp ht with h | h
      · subst h
        rw [keyOf_alInsert_self] at hk' ⊢
        have hkk : k' = k := by
          have hsk : ali.seq = some k' := hk'
          rw [hseq] at hsk
          cases hsk
          rfl
        subst hkk
        refine ⟨{ ali with heapToken := some st.next }, ?_, rfl, rfl, rfl⟩
        rw [hseq]
        exact alLookup_alInsert_self st.data (some k') _
      · have htlt := hwf.heapTok t h
        rw [hkeyOf t htlt] at hk' ⊢
        obtain ⟨r, hr, hrt, hrp, hrtm⟩ := hwf.live t h k' hk'
        have hkne : k' ≠ k := by
          intro he
          rw [he, hfresh] at hr
          exact Option.noConfusion hr
        refine ⟨r, ?_, hrt, hrp, hrtm⟩
        rw [hseq, alLookup_alInsert_ne st.data (some k) (some k') _
          (by simp [hkne])]
        exact hr
    · -- isHeap
      rw [hheap]
      show IsHeapFrom (tokLe (push_new_info st ali).entries) _ 0
      rw [hent]
      apply heappush_heap (mkLt (alInsert st.entries st.next
        (makeHeapEntry ali))) _ (fun a b => tokLe_of_mkLt)
        (fun a b => tokLe_of_not_mkLt)
        (tokLe_trans _)
      exact IsHeapFrom_congr hwf.isHeap (by
        intro a ha b hb hab
        unfold tokLe
        rw [hkeyOf a (hwf.heapTok a ha), hkeyOf b (hwf.heapTok b hb)]
        exact hab)
  · -- keyLive is preserved
    intro hkl k' r' hr'
    rw [hdata] at hr'
    by_cases hkk : k' = k
    · subst hkk
      rw [hseq, alLookup_alInsert_self st.data (some k') _] at hr'
      cases hr'
      refine ⟨st.next, rfl, (hmem' st.next).mpr (Or.inl rfl), ?_⟩
      rw [hent, keyOf_alInsert_self]
      exact hseq
    · rw [hseq, alLookup_alInsert_ne st.data (some k) (some k') _
        (by simp [hkk])] at hr'
      obtain ⟨t, htk, htm, hts⟩ := hkl k' r' hr'
      refine ⟨t, htk, (hmem' t).mpr (Or.inr htm), ?_⟩
      rw [hent, hkeyOf t (hwf.heapTok t htm)]
      exact hts

theorem drop_step_WF (st : Store) (s : Int) (ali : Record) (t : Nat)
    (hlk : alLookup st.data (some s) = some ali)
    (ht : ali.heapToken = some t)
    (hwf : WFcore st) :
    WFcore { st with entries := setSeqNone st.entries t,
                     data := alErase st.data (some s) } ∧
      (keyLive st →
        keyLive { st with entries := setSeqNone st.entries t,
                          data := alErase st.data (some s) }) := by
  constructor
  · constructor
    · exact hwf.heapNodup
    · exact hwf.heapTok
    · -- entTok: sabotage only rewrites values
      intro p hp
      obtain ⟨q, hq, hfq⟩ := List.mem_map.mp hp
      have hfst : p.1 = q.1 := by
        rw [← hfq]
        split_ifs <;> rfl
      rw [hfst]
      exact hwf.entTok q hq
    · intro p hp
      exact hwf.dataW1 p (mem_of_mem_alErase st.data (some s) p hp)
    · exact alErase_keys_nodup st.data (some s) hwf.dataNodup
    · -- live: the sabotaged entry has no seq; others keep their key
      intro u hu k' hk'
      by_cases hut : u = t
      · subst hut
        have hk'' : (keyOf (setSeqNone st.entries u) u).seq = some k' := hk'
        rw [keyOf_setSeqNone_self_seq] at hk''
        exact Option.noConfusion hk''
      · have hk'' : (keyOf (setSeqNone st.entries t) u).seq = some k' := hk'
        rw [keyOf_setSeqNone_ne st.entries t u hut] at hk''
        obtain ⟨r, hr, hrt, hrp, hrtm⟩ := hwf.live u hu k' hk''
        have hks : k' ≠ s := by
          intro he
          subst he
          rw [hlk] at hr
          cases hr
          rw [ht] at hrt
          exact hut (Option.some.inj hrt).symm
        refine ⟨r, ?_, hrt, ?_, ?_⟩
        · show alLookup (alErase st.data (some s)) (some k') = some r
          rw [alLookup_alErase_ne st.data (some s) (some k') (by simp [hks])]
          exact hr
        · show r.priority = (keyOf (setSeqNone st.entries t) u).prio
          rw [keyOf_setSeqNone_prio]
          exact hrp
        · show r.time = (keyOf (setSeqNone st.entries t) u).time
          rw [keyOf_setSeqNone_time]
          exact hrtm
    · -- isHeap: the (priority, time) order is stable under sabotage
      show IsHeapFrom (tokLe (setSeqNone st.entries t)) st.heap 0
      exact IsHeapFrom_congr hwf.isHeap
        (fun a _ b _ hab => (tokLe_setSeqNone st.entries t a b).mpr hab)
  · -- keyLive
    intro hkl k' r' hr'
    have hr'' : alLookup (alErase st.data (some s)) (some k') = some r' := hr'
    by_cases hks : k' = s
    · rw [hks] at hr''
      rw [alLookup_alErase_self st.data (some s) hwf.dataNodup] at hr''
      exact Option.noConfusion hr''
    · rw [alLookup_alErase_ne st.data (some s) (some k')
        (by simp [hks])] at hr''
      obtain ⟨t', ht'k, ht'm, ht's⟩ := hkl k' r' hr''
      have ht't : t' ≠ t := by
        intro he
        obtain ⟨t₀, ht₀k, ht₀m, ht₀s⟩ := hkl s ali hlk
        have ht₀t : t₀ = t := by
          rw [ht₀k] at ht
          exact Option.some.inj ht
        rw [he] at ht's
        rw [ht₀t] at ht₀s
        rw [ht's] at ht₀s
        exact hks (Option.some.inj ht₀s)
      refine ⟨t', ht'k, ht'm, ?_⟩
      show (keyOf (setSeqNone st.entries t) t').seq = some k'
      rw [keyOf_setSeqNone_ne st.entries t t' ht't]
      exact ht's

theorem drop_WF : ∀ (seqs : List Int) (st : Store), WFcore st →
    WFcore ((drop st seqs).1) ∧
      (keyLive st → keyLive ((drop st seqs).1)) := by
  intro seqs
  induction seqs with
  | nil => intro st hwf; exact ⟨hwf, fun h => h⟩
  | cons s rest ih =>
      intro st hwf
      cases hl : alLookup st.data (some s) with
      | none =>
          simp only [drop, hl]
          exact ⟨hwf, fun h => h⟩
      | some ali =>
          cases hth : ali.heapToken with
          | none =>
              simp only [drop, hl, hth]
              exact ⟨hwf, fun h => h⟩
          | some t =>
              simp only [drop, hl, hth]
              obtain ⟨h1, h2⟩ := drop_step_WF st s ali t hl hth hwf
              obtain ⟨h3, h4⟩ := ih _ h1
              exact ⟨h3, fun hk => h4 (h2 hk)⟩

theorem heappop_store (st : Store) (t : Nat) (heap' : List Nat)
    (hwf : WFcore st)
    (h : heappop (mkLt st.entries) st.heap = .ok (t, heap')) :
    WFcore { st with heap := heap' } ∧ t ∈ st.heap ∧
      (∀ u ∈ st.heap, tokLe st.entries t u) ∧
      (∀ u ∈ heap', u ∈ st.heap) := by
  have hms := heappop_multiset h
  have hperm : st.heap.Perm (t :: heap') := by
    apply Multiset.coe_eq_coe.mp
    rw [hms, Multiset.cons_coe]
  have hsub : ∀ u ∈ heap', u ∈ st.heap :=
    fun u hu => hperm.mem_iff.mpr (List.mem_cons_of_mem t hu)
  have hpop := heappop_heap (mkLt st.entries) (tokLe st.entries)
    (fun a b => tokLe_of_mkLt) (fun a b => tokLe_of_not_mkLt)
    (tokLe_trans st.entries) hwf.isHeap h
  refine ⟨?_, hperm.mem_iff.mpr (List.mem_cons_self t heap'), hpop.2, hsub⟩
  constructor
  · exact ((hperm.nodup_iff.mp hwf.heapNodup).of_cons)
  · exact fun u hu => hwf.heapTok u (hsub u hu)
  · exact hwf.entTok
  · exact hwf.dataW1
  · exact hwf.dataNodup
  · exact fun u hu k hk => hwf.live u (hsub u hu) k hk
  · exact hpop.1

theorem recPT_of_live (st : Store) (t : Nat) (s : Int)
    (hwf : WFcore st) (htm : t ∈ st.heap)
    (hts : (keyOf st.entries t).seq = some s) :
    recPT st s = ((keyOf st.entries t).prio, (keyOf st.entries t).time) := by
  obtain ⟨r, hr, _, hrp, hrtm⟩ := hwf.live t htm s hts
  simp only [recPT, hr]
  rw [hrp, hrtm]

theorem popNTodoGo_spec :
    ∀ (fuel : Nat) (st : Store) (n : Nat),
      st.heap.length + n ≤ fuel → WFcore st →
      (popNTodoGo fuel st n).1.length ≤ n ∧
      (∀ s ∈ (popNTodoGo fuel st n).1,
        ∃ t, t ∈ st.heap ∧ (keyOf st.entries t).seq = some s) ∧
      List.Chain' (fun a b => ptLe (recPT st a) (recPT st b))
        (popNTodoGo fuel st n).1 ∧
      WFcore (popNTodoGo fuel st n).2.1 ∧
      (popNTodoGo fuel st n).2.1.data = st.data ∧
      (popNTodoGo fuel st n).2.1.entries = st.entries := by
  intro fuel
  induction fuel with
  | zero =>
      intro st n hb hwf
      refine ⟨Nat.zero_le n, ?_, List.chain'_nil, hwf, rfl, rfl⟩
      intro s hs
      exact absurd (hs : s ∈ ([] : List Int)) (List.not_mem_nil s)
  | succ fuel ih =>
      intro st n hb hwf
      rw [popNTodoGo]
      split_ifs with hn
      · refine ⟨Nat.zero_le n, ?_, List.chain'_nil, hwf, rfl, rfl⟩
        intro s hs
        exact absurd (hs : s ∈ ([] : List Int)) (List.not_mem_nil s)
      · cases hpop : heappop (mkLt st.entries) st.heap with
        | error e =>
            simp only [hpop]
            refine ⟨Nat.zero_le n, ?_, List.chain'_nil, hwf, by trivial,
              by trivial⟩
            intro s hs
            exact absurd (hs : s ∈ ([] : List Int)) (List.not_mem_nil s)
        | ok p =>
            obtain ⟨t, heap'⟩ := p
            simp only [hpop]
            obtain ⟨hwf₁, htm, hmin, hsub⟩ := heappop_store st t heap' hwf hpop
            have hlen := heappop_ok_length hpop
            cases hseq : (keyOf st.entries t).seq with
            | some s =>
                simp only [hseq]
                split_ifs with hs
                · -- yield s, recurse with n - 1
                  have hb₁ : ({ st with heap := heap' } : Store).heap.length +
                      (n - 1) ≤ fuel := by
                    show heap'.length + (n - 1) ≤ fuel
                    omega
                  obtain ⟨ih1, ih2, ih3, ih4, ih5, ih6⟩ :=
                    ih { st with heap := heap' } (n - 1) hb₁ hwf₁
                  refine ⟨?_, ?_, ?_, ih4, ih5, ih6⟩
                  · simp only [List.length_cons]
                    omega
                  · intro s' hs'
                    rcases List.mem_cons.mp hs' with he | hm
                    · exact he ▸ ⟨t, htm, hseq⟩
                    · obtain ⟨t', ht'm, ht's⟩ := ih2 s' hm
                      exact ⟨t', hsub t' ht'm, ht's⟩
                  · apply List.chain'_cons'.mpr
                    refine ⟨?_, ih3⟩
                    intro b hbh
                    obtain ⟨t', ht'm, ht's⟩ :=
                      ih2 b (List.mem_of_mem_head? hbh)
                    rw [recPT_of_live st t s hwf htm hseq,
                      recPT_of_live st t' b hwf (hsub t' ht'm) ht's]
                    exact hmin t' (hsub t' ht'm)
                · -- s falsy: skip, recurse with the same n
                  have hb₁ : ({ st with heap := heap' } : Store).heap.length +
                      n ≤ fuel := by
                    show heap'.length + n ≤ fuel
                    omega
                  obtain ⟨ih1, ih2, ih3, ih4, ih5, ih6⟩ :=
                    ih { st with heap := heap' } n hb₁ hwf₁
                  refine ⟨ih1, ?_, ih3, ih4, ih5, ih6⟩
                  intro s' hm
                  obtain ⟨t', ht'm, ht's⟩ := ih2 s' hm
                  exact ⟨t', hsub t' ht'm, ht's⟩
            | none =>
                simp only [hseq]
                have hb₁ : ({ st with heap := heap' } : Store).heap.length +
                    n ≤ fuel := by
                  show heap'.length + n ≤ fuel
                  omega
                obtain ⟨ih1, ih2, ih3, ih4, ih5, ih6⟩ :=
                  ih { st with heap := heap' } n hb₁ hwf₁
                refine ⟨ih1, ?_, ih3, ih4, ih5, ih6⟩
                intro s' hm
                obtain ⟨t', ht'm, ht's⟩ := ih2 s' hm
                exact ⟨t', hsub t' ht'm, ht's⟩

theorem enum_entries_lookup :
    ∀ (rows : List Record) (i j : Nat), j < rows.length →
      alLookup ((List.enumFrom i rows).map fun p => (p.1, makeHeapEntry p.2))
        (i + j) = some (makeHeapEntry (rows.getD j defaultRecord)) := by
  intro rows
  induction rows with
  | nil => intro i j h; simp at h
  | cons r rest ih =>
      intro i j h
      rw [List.enumFrom, List.map_cons, alLookup]
      cases j with
      | zero =>
          rw [if_pos (show i = i + 0 by omega)]
          rw [List.getD_cons_zero]
      | succ j =>
          rw [if_neg (show ¬ i = i + (j + 1) by omega)]
          rw [show i + (j + 1) = (i + 1) + j from by omega]
          rw [List.getD_cons_succ]
          exact ih (i + 1) j (by simpa using h)

theorem enum_entries_key_lt :
    ∀ (rows : List Record) (i : Nat) (p : Nat × Entry),
      p ∈ (List.enumFrom i rows).map (fun q => (q.1, makeHeapEntry q.2)) →
      p.1 < i + rows.length := by
  intro rows
  induction rows with
  | nil => intro i p h; simp [List.enumFrom] at h
  | cons r rest ih =>
      intro i p h
      rw [List.enumFrom, List.map_cons] at h
      rcases List.mem_cons.mp h with he | hm
      · rw [he]
        show i < i + (r :: rest).length
        simp
      · have := ih (i + 1) p hm
        simp only [List.length_cons]
        omega

theorem loadFold_lookup_nodup :
    ∀ (rows : List Record) (i : Nat) (d : List (Option Int × Record))
      (j : Nat), j < rows.length → (rows.map Record.seq).Nodup →
      alLookup ((List.enumFrom i rows).foldl loadFoldStep d)
        ((rows.getD j defaultRecord).seq) =
        some { rows.getD j defaultRecord with heapToken := some (i + j) } := by
  intro rows
  induction rows with
  | nil => intro i d j h _; simp at h
  | cons r rest ih =>
      intro i d j h hnd
      simp only [List.map_cons, List.nodup_cons] at hnd
      rw [List.enumFrom, List.foldl_cons]
      cases j with
      | zero =>
          rw [List.getD_cons_zero]
          rw [loadFold_lookup_not_mem rest (i + 1) _ r.seq
            (fun r' hr' he =>
              hnd.1 (he ▸ List.mem_map_of_mem Record.seq hr'))]
          show alLookup (alInsert d r.seq { r with heapToken := some i })
            r.seq = _
          rw [alLookup_alInsert_self]
          rfl
      | succ j =>
          rw [List.getD_cons_succ]
          rw [show i + (j + 1) = (i + 1) + j from by omega]
          exact ih (i + 1) (loadFoldStep d (i, r)) j (by simpa using h) hnd.2

theorem loadFold_keys :
    ∀ (rows : List Record) (i : Nat) (d : List (Option Int × Record)),
      (rows.map Record.seq).Nodup →
      (∀ r ∈ rows, r.seq ∉ d.map Prod.fst) →
      ((List.enumFrom i rows).foldl loadFoldStep d).map Prod.fst =
        d.map Prod.fst ++ rows.map Record.seq := by
  intro rows
  induction rows with
  | nil => intro i d _ _; simp [List.enumFrom]
  | cons r rest ih =>
      intro i d hnd hdis
      simp only [List.map_cons, List.nodup_cons] at hnd
      rw [List.enumFrom, List.foldl_cons]
      rw [ih (i + 1) (loadFoldStep d (i, r)) hnd.2 ?hdis]
      case hdis =>
        intro r' hr'
        show r'.seq ∉
          (alInsert d r.seq { r with heapToken := some i }).map Prod.fst
        rw [alInsert_keys_not_mem d r.seq _
          (hdis r (List.mem_cons_self r rest))]
        intro hmem
        rcases List.mem_append.mp hmem with h | h
        · exact hdis r' (List.mem_cons_of_mem r hr') h
        · simp only [List.mem_singleton] at h
          exact hnd.1 (h ▸ List.mem_map_of_mem Record.seq hr')
      show (alInsert d r.seq { r with heapToken := some i }).map Prod.fst ++
        rest.map Record.seq = _
      rw [alInsert_keys_not_mem d r.seq _
        (hdis r (List.mem_cons_self r rest))]
      rw [List.append_assoc]
      rfl

theorem loadFold_mem :
    ∀ (rows : List Record) (i : Nat) (d : List (Option Int × Record))
      (p : Option Int × Record),
      p ∈ (List.enumFrom i rows).foldl loadFoldStep d →
      p ∈ d ∨ ∃ (j : Nat) (r : Record),
        p = (r.seq, { r with heapToken := some j }) := by
  intro rows
  induction rows with
  | nil => intro i d p h; exact Or.inl h
  | cons r rest ih =>
      intro i d p h
      rw [List.enumFrom, List.foldl_cons] at h
      rcases ih (i + 1) _ p h with h' | h'
      · rcases mem_alInsert d r.seq { r with heapToken := some i } p h'
          with he | hd
        · exact Or.inr ⟨i, r, he⟩
        · exact Or.inl hd
      · exact Or.inr h'

theorem load_WF (f : SerializedFile)
    (hnd : (f.aaData.map Record.seq).Nodup) :
    WFcore (loadStore f) ∧ keyLive (loadStore f) := by
  have hent : (loadStore f).entries =
      (List.enumFrom 0 f.aaData).map (fun p => (p.1, makeHeapEntry p.2)) := rfl
  have hheap : (loadStore f).heap =
      heapify (mkLt ((List.enumFrom 0 f.aaData).map
        fun p => (p.1, makeHeapEntry p.2)))
        (List.range f.aaData.length) := rfl
  have hdata := loadStore_data_eq f
  have hnext : (loadStore f).next = f.aaData.length := rfl
  have hperm : (loadStore f).heap.Perm (List.range f.aaData.length) := by
    rw [hheap]
    exact Multiset.coe_eq_coe.mp (heapify_multiset _ _)
  have hmemheap : ∀ t, t ∈ (loadStore f).heap ↔ t < f.aaData.length := by
    intro t
    rw [hperm.mem_iff, List.mem_range]
  have hkey : ∀ t, t < f.aaData.length →
      keyOf (loadStore f).entries t =
        makeHeapEntry (f.aaData.getD t defaultRecord) := by
    intro t ht
    unfold keyOf
    rw [hent]
    have hl := enum_entries_lookup f.aaData 0 t ht
    rw [Nat.zero_add] at hl
    rw [hl]
    rfl
  have hlook : ∀ t, t < f.aaData.length →
      alLookup (loadStore f).data ((f.aaData.getD t defaultRecord).seq) =
        some { f.aaData.getD t defaultRecord with heapToken := some t } := by
    intro t ht
    rw [hdata]
    have hl := loadFold_lookup_nodup f.aaData 0 [] t ht hnd
    rwa [Nat.zero_add] at hl
  refine ⟨⟨?_, ?_, ?_, ?_, ?_, ?_, ?_⟩, ?_⟩
  · exact hperm.nodup_iff.mpr (List.nodup_range _)
  · intro t ht
    rw [hnext]
    exact (hmemheap t).mp ht
  · intro p hp
    rw [hent] at hp
    rw [hnext]
    have := enum_entries_key_lt f.aaData 0 p hp
    omega
  · intro p hp
    rw [hdata] at hp
    rcases loadFold_mem f.aaData 0 [] p hp with h | ⟨j, r, he⟩
    · exact absurd h (List.not_mem_nil p)
    · rw [he]
  · rw [hdata]
    rw [loadFold_keys f.aaData 0 [] hnd (by intro r _; simp)]
    simpa using hnd
  · intro t ht k hk
    have htl : t < f.aaData.length := (hmemheap t).mp ht
    rw [hkey t htl] at hk
    have hseq : (f.aaData.getD t defaultRecord).seq = some k := hk
    refine ⟨{ f.aaData.getD t defaultRecord with heapToken := some t },
      ?_, rfl, ?_, ?_⟩
    · rw [← hseq]
      exact hlook t htl
    · rw [hkey t htl]
      rfl
    · rw [hkey t htl]
      rfl
  · show IsHeapFrom (tokLe (loadStore f).entries) (loadStore f).heap 0
    rw [hheap, hent]
    exact heapify_heap _ _ (fun a b => tokLe_of_mkLt)
      (fun a b => tokLe_of_not_mkLt) (tokLe_trans _) _
  · intro k r hr
    have hkm : (some k) ∈ (loadStore f).data.map Prod.fst :=
      alLookup_mem_keys _ _ _ hr
    rw [hdata, loadFold_keys f.aaData 0 [] hnd (by intro r' _; simp)] at hkm
    simp only [List.map_nil, List.nil_append] at hkm
    obtain ⟨row, hrow, hrowseq⟩ := List.mem_map.mp hkm
    obtain ⟨j, hj, hje⟩ := List.mem_iff_getElem.mp hrow
    have hgd : f.aaData.getD j defaultRecord = row := by
      rw [List.getD_eq_getElem _ _ hj, hje]
    have hlookj := hlook j hj
    rw [hgd, hrowseq] at hlookj
    have hre : r = { row with heapToken := some j } := by
      rw [hlookj] at hr
      exact (Option.some.inj hr).symm
    refine ⟨j, ?_, (hmemheap j).mpr hj, ?_⟩
    · rw [hre]
    · rw [hkey j hj, hgd]
      exact hrowseq

theorem OKRun_WF_C7 :
    ∀ (ops : List SOp) (st : Store), WFcore st → OKRun C7OK st ops →
      WFcore (applyOps st ops) := by
  intro ops
  induction ops with
  | nil => intro st hwf _; exact hwf
  | cons op ops ih =>
      intro st hwf hok
      obtain ⟨hop, hrest⟩ := hok
      have hWF : WFcore (applyOp st op) := by
        cases op with
        | push ali =>
            obtain ⟨k, hk1, hk2⟩ := hop
            exact (push_WF st ali k hk1 hk2 hwf).1
        | dropIds seqs => exact (drop_WF seqs st hwf).1
        | popN n =>
            exact (popNTodoGo_spec (st.heap.length + n) st n
              (le_refl _) hwf).2.2.2.1
      exact ih (applyOp st op) hWF hrest

theorem OKRun_WF_C1 :
    ∀ (ops : List SOp) (st : Store), WFcore st → keyLive st →
      OKRun C1OK st ops →
      WFcore (applyOps st ops) ∧ keyLive (applyOps st ops) := by
  intro ops
  induction ops with
  | nil => intro st hwf hkl _; exact ⟨hwf, hkl⟩
  | cons op ops ih =>
      intro st hwf hkl hok
      obtain ⟨hop, hrest⟩ := hok
      have hWF : WFcore (applyOp st op) ∧ keyLive (applyOp st op) := by
        cases op with
        | push ali =>
            obtain ⟨k, hk1, hk2⟩ := hop
            obtain ⟨h1, h2⟩ := push_WF st ali k hk1 hk2 hwf
            exact ⟨h1, h2 hkl⟩
        | dropIds seqs =>
            obtain ⟨h1, h2⟩ := drop_WF seqs st hwf
            exact ⟨h1, h2 hkl⟩
        | popN n => exact hop.elim
      exact ih (applyOp st op) hWF.1 hWF.2 hrest

theorem count_filterMap_le_one (g : Nat → Option Int) (k : Int) :
    ∀ (l : List Nat), l.Nodup →
      (∀ t ∈ l, ∀ u ∈ l, g t = some k → g u = some k → t = u) →
      List.count k (l.filterMap g) ≤ 1 := by
  intro l
  induction l with
  | nil => intro _ _; simp
  | cons t rest ih =>
      intro hnd hinj
      rw [List.nodup_cons] at hnd
      rw [List.filterMap_cons]
      cases hg : g t with
      | none =>
          exact ih hnd.2 (fun a ha b hb =>
            hinj a (List.mem_cons_of_mem t ha) b (List.mem_cons_of_mem t hb))
      | some v =>
          rw [List.count_cons]
          by_cases hv : v = k
          · have hz : List.count k (rest.filterMap g) = 0 := by
              rw [List.count_eq_zero]
              intro hmem
              obtain ⟨u, hu, hgu⟩ := List.mem_filterMap.mp hmem
              have htu : t = u := hinj t (List.mem_cons_self t rest) u
                (List.mem_cons_of_mem t hu) (by rw [hg, hv]) hgu
              exact hnd.1 (htu ▸ hu)
            rw [hz]
            split_ifs <;> omega
          · have hle := ih hnd.2 (fun a ha b hb =>
              hinj a (List.mem_cons_of_mem t ha) b (List.mem_cons_of_mem t hb))
            have hbeq : (v == k) = false := by simp [hv]
            rw [hbeq]
            simp only [Bool.false_eq_true, if_false]
            omega

theorem count_le_one_of_nodup {α : Type} [BEq α] [LawfulBEq α] :
    ∀ (l : List α), l.Nodup → ∀ a : α, List.count a l ≤ 1 := by
  intro l
  induction l with
  | nil => intro _ a; simp
  | cons b rest ih =>
      intro hnd a
      rw [List.nodup_cons] at hnd
      rw [List.count_cons]
      by_cases hba : b = a
      · subst hba
        have hz : List.count b rest = 0 :=
          List.count_eq_zero.mpr hnd.1
        rw [hz]
        split_ifs <;> omega
      · have hbeq : (b == a) = false := by
          rw [beq_eq_false_iff_ne]
          exact hba
        rw [hbeq]
        simp only [Bool.false_eq_true, if_false]
        have := ih hnd.2 a
        omega

theorem WF_counts (st : Store) (hwf : WFcore st) (hkl : keyLive st)
    (k : Int) :
    List.count k (liveSeqs st) = List.count (some k) (keysOf st) ∧
      List.count (some k) (keysOf st) ≤ 1 := by
  have hk1 : List.count (some k) (keysOf st) ≤ 1 :=
    count_le_one_of_nodup (keysOf st) hwf.dataNodup (some k)
  refine ⟨?_, hk1⟩
  have hinj : ∀ t ∈ st.heap, ∀ u ∈ st.heap,
      (keyOf st.entries t).seq = some k →
      (keyOf st.entries u).seq = some k → t = u := by
    intro t ht u hu hgt hgu
    obtain ⟨r, hr, hrt, _, _⟩ := hwf.live t ht k hgt
    obtain ⟨r', hr', hr't, _, _⟩ := hwf.live u hu k hgu
    rw [hr] at hr'
    cases hr'
    rw [hrt] at hr't
    exact Option.some.inj hr't
  have hle : List.count k (liveSeqs st) ≤ 1 :=
    count_filterMap_le_one (fun t => (keyOf st.entries t).seq) k st.heap
      hwf.heapNodup hinj
  by_cases hk : (some k) ∈ keysOf st
  · obtain ⟨r, hr⟩ := lookup_some_of_mem_keys st.data (some k) hk
    obtain ⟨t, htk, htm, hts⟩ := hkl k r hr
    have hmem : k ∈ liveSeqs st := List.mem_filterMap.mpr ⟨t, htm, hts⟩
    have hpos : 0 < List.count k (liveSeqs st) :=
      List.count_pos_iff.mpr hmem
    have hpos' : 0 < List.count (some k) (keysOf st) :=
      List.count_pos_iff.mpr hk
    omega
  · have h1 : List.count (some k) (keysOf st) = 0 :=
      List.count_eq_zero.mpr hk
    have h2 : List.count k (liveSeqs st) = 0 := by
      rw [List.count_eq_zero]
      intro hmem
      obtain ⟨t, htm, hts⟩ := List.mem_filterMap.mp hmem
      obtain ⟨r, hr, _, _, _⟩ := hwf.live t htm k hts
      exact hk (alLookup_mem_keys st.data (some k) r hr)
    rw [h1, h2]

/-! ## Claim theorems -/

/-- C3: for a record whose progress is a date string, with
`max_update_period_days = 90`, `begin_penalty_days = 30`,
`stationary_count = 10`, no reservation and progress 60 days old, the spec
expects `priority = 10 * (1 - (60-30)/(90-30)) = 5.0`; the code instead
raises `UnboundLocalError` at `days -= begin_time_penalty` (the name `days`
is never assigned), which is a slip: the adjacent comment describes exactly
the spec's linear decay. -/
theorem C3_calculate_priority_raises_unbound_local :
    calculate_priority c3rec 90 30 (1 / 2) (fun _ => 60) =
      .error .unboundLocalError := by
  decide

/-- C8: the reservation reconciliation scenario.  Reserving `[10, 20, 30]`
as alice where 10 is already alice's, 20 is bob's and 30 unowned returns
already-owned `[10]` and other-owns `[(20, "bob")]` and sets 30's
reservation to alice; `unreserve("alice", [30])` then clears it, and a later
`unreserve("bob", [30])` reports 30 as not-reserved; a missing id is
returned in the does-not-exist list.  None of these calls has an error
outcome: the operations are total functions of the loaded store. -/
theorem C8_reservation_reconciliation :
    (reserve_seqs c8st0 "alice" [10, 20, 30]).2 = ([], [10], [(20, "bob")]) ∧
    (alLookup c8st1.data (some 30)).map Record.res = some "alice" ∧
    (unreserve_seqs c8st1 "alice" [30]).2 = ([], [], []) ∧
    (alLookup c8st2.data (some 30)).map Record.res = some "" ∧
    (unreserve_seqs c8st2 "bob" [30]).2 = ([], [30], []) ∧
    (unreserve_seqs c8st2 "alice" [99]).2 = ([99], [], []) := by
  refine ⟨?_, ?_, ?_, ?_, ?_, ?_⟩ <;> decide

/-- C9: `lock()` uses exclusive-create semantics, so a second acquisition
while the lock is held fails with `LockError`; and the blocking entry with
`block_minutes = bm` against a continuously held lock makes exactly
`bm*60 + 1 ≥ 1` attempts (so at least one even for `bm = 0`) and then
re-raises the lock error. -/
theorem C9_lock_exclusive_and_blocking_retry :
    (∀ (f : SerializedFile) (fs : Bool) (st : Store) (fs' : Bool),
        lock_read_init f fs = .ok (st, fs') →
        lock_read_init f fs' = .error .lockError) ∧
    (∀ (bm : Nat) (f : SerializedFile),
        enterRun bm f true = (.error .lockError, bm * 60 + 1) ∧
        1 ≤ bm * 60 + 1) := by
  constructor
  · intro f fs st fs' h
    cases fs with
    | true => exact absurd h (by simp [lock_read_init])
    | false =>
        simp only [lock_read_init, if_neg Bool.false_ne_true, Except.ok.injEq,
          Prod.mk.injEq] at h
        rw [← h.2]
        simp [lock_read_init]
  · intro bm f
    refine ⟨?_, by omega⟩
    rw [enterRun, enterLoop_held f (bm * 60 / 1 + 1) 0]
    simp [Nat.div_one]

/-- C9 witness: locking an unheld lock succeeds, after which a second
`lock_read_init` fails with `LockError`; `acquire(block_minutes=0)` against
a held lock makes exactly one attempt. -/
theorem C9_witness :
    lock_read_init ⟨[], none⟩ true = .error .lockError ∧
    enterRun 0 ⟨[], none⟩ true = (.error .lockError, 1) := by
  constructor
  · exact C9_lock_exclusive_and_blocking_retry.1 ⟨[], none⟩ false
      (loadStore ⟨[], none⟩) true rfl
  · have h := (C9_lock_exclusive_and_blocking_retry.2 0 ⟨[], none⟩).1
    simpa using h

/-- C5 counterexample: with only seq 10 in the store, `drop([10, 99])`
raises the not-found error, but the failed call is not atomic: 10 has
already been removed from the id map and its heap entry tombstoned. -/
theorem C5_counterexample_drop_not_atomic :
    (drop c5st0 [10, 99]).2 = some .keyError ∧
    (drop c5st0 [10, 99]).1.data = [] ∧
    c5st0.data.map Prod.fst = [some 10] ∧
    (alLookup ((drop c5st0 [10, 99]).1).entries 0).map Entry.seq = some none ∧
    (alLookup c5st0.entries 0).map Entry.seq = some (some 10) := by
  refine ⟨?_, ?_, ?_, ?_, ?_⟩ <;> decide

/-- C5 (amended): `drop(seqs)` raises the not-found error eagerly at the
first id absent from the map, but it applies the drops of the ids preceding
it in the list (prefix application) rather than leaving the store unchanged;
when every id is present (and the store's dict structure is well formed),
each listed id is tombstoned in the heap's entry table and removed from the
id map, the heap array itself and all other keys untouched. -/
theorem C5_drop_eager_with_prefix_application :
    (∀ (st : Store) (pre : List Int) (bad : Int) (rest : List Int),
      pre.Nodup →
      (∀ s ∈ pre, ∃ r t, alLookup st.data (some s) = some r ∧
        r.heapToken = some t) →
      alLookup st.data (some bad) = none →
      drop st (pre ++ bad :: rest) = ((drop st pre).1, some .keyError) ∧
      (drop st pre).2 = none) ∧
    (∀ (st : Store) (seqs : List Int),
      seqs.Nodup →
      (st.data.map Prod.fst).Nodup →
      (∀ s ∈ seqs, ∃ r t e, alLookup st.data (some s) = some r ∧
        r.heapToken = some t ∧ alLookup st.entries t = some e) →
      (drop st seqs).2 = none ∧
      ((drop st seqs).1).heap = st.heap ∧
      (∀ s ∈ seqs, alLookup ((drop st seqs).1).data (some s) = none) ∧
      (∀ s ∈ seqs, ∀ r t, alLookup st.data (some s) = some r →
        r.heapToken = some t →
        (alLookup ((drop st seqs).1).entries t).map Entry.seq = some none) ∧
      (∀ k, (∀ s ∈ seqs, some s ≠ k) →
        alLookup ((drop st seqs).1).data k = alLookup st.data k)) := by
  constructor
  · exact fun st pre bad rest h1 h2 h3 => drop_prefix_raises pre st bad rest h1 h2 h3
  · intro st seqs h1 h2 h3
    have h := drop_all_present seqs st h1 h2 h3
    exact ⟨h.1, drop_heap_eq seqs st, h.2.1, h.2.2.1, h.2.2.2⟩

/-- C5 witness: the amended statement applied to the one-record store. -/
theorem C5_witness :
    (drop c5st0 ([10] ++ 99 :: []) = ((drop c5st0 [10]).1, some .keyError) ∧
      (drop c5st0 [10]).2 = none) ∧
    alLookup ((drop c5st0 [10]).1).data (some 10) = none := by
  constructor
  · apply C5_drop_eager_with_prefix_application.1 c5st0 [10] 99 []
    · decide
    · intro s hs
      have hs10 : s = 10 := by simpa using hs
      subst hs10
      exact ⟨{ mkRec 10 "" 1 with heapToken := some 0 }, 0, by decide, rfl⟩
    · decide
  · apply (C5_drop_eager_with_prefix_application.2 c5st0 [10] (by decide)
      (by decide) ?_).2.2.1 10 (by decide)
    intro s hs
    have hs10 : s = 10 := by simpa using hs
    subst hs10
    exact ⟨{ mkRec 10 "" 1 with heapToken := some 0 }, 0, ⟨1, "", some 10⟩,
      by decide, rfl, by decide⟩

/-- C6 (spec-modelled): a store initialized read-only has `_have_lock`
false, and every mutating operation — write-back, drop, push_new_info,
reserve, unreserve — on any store not holding the lock fails with
`LockError` and leaves the store unchanged. -/
theorem C6_readonly_store_rejects_mutation :
    (∀ f : SerializedFile, (readonly_init f).haveLock = false) ∧
    (∀ g : GuardedStore, g.haveLock = false →
      guardedWrite g = (g, .error .lockError) ∧
      (∀ seqs, guardedDrop g seqs = (g, some .lockError)) ∧
      (∀ ali, guardedPush g ali = (g, some .lockError)) ∧
      (∀ name seqs, guardedReserve g name seqs = (g, some .lockError)) ∧
      (∀ name seqs, guardedUnreserve g name seqs = (g, some .lockError))) := by
  refine ⟨fun f => rfl, fun g hg => ⟨?_, ?_, ?_, ?_, ?_⟩⟩ <;>
    intros <;>
    simp [guardedWrite, guardedDrop, guardedPush, guardedReserve,
      guardedUnreserve, hg]

/-- C6 witness: the modelled mutators on a concretely read-only-initialized
store all fail with `LockError`. -/
theorem C6_witness :
    guardedDrop (readonly_init ⟨[], none⟩) [276] =
      (readonly_init ⟨[], none⟩, some .lockError) ∧
    guardedWrite (readonly_init ⟨[], none⟩) =
      (readonly_init ⟨[], none⟩, .error .lockError) := by
  constructor
  · exact ((C6_readonly_store_rejects_mutation.2 (readonly_init ⟨[], none⟩)
      (C6_readonly_store_rejects_mutation.1 ⟨[], none⟩)).2.1) [276]
  · exact (C6_readonly_store_rejects_mutation.2 (readonly_init ⟨[], none⟩)
      (C6_readonly_store_rejects_mutation.1 ⟨[], none⟩)).1

/-- C1 counterexample: the lazy-deletion invariant fails as stated.  (a) In
`cOst2` (an overwriting `push_new_info` of id 5) the id map has one key but
two live heap entries carry seq 5 — not "exactly one".  (b) After
`drop([5])` only the current entry is tombstoned, so the orphaned live
entry still carries 5 while the key set is empty — the set equality fails.
(c) `pop_n_todo(1)` on a one-record store consumes the live entry of id 7
while 7 stays in the id map — the set equality fails again. -/
theorem C1_counterexample_lazy_deletion :
    List.count 5 (liveSeqs cOst2) = 2 ∧ keysOf cOst2 = [some 5] ∧
    liveSeqs cOst3 = [5] ∧ keysOf cOst3 = [] ∧
    liveSeqs ((popNTodo cPst0 1).2.1) = [] ∧
    keysOf ((popNTodo cPst0 1).2.1) = [some 7] := by
  refine ⟨?_, ?_, ?_, ?_, ?_, ?_⟩ <;> decide

/-- C7 counterexample: after the overwrite-then-drop of id 5 (`cOst3`),
`pop_n_todo(1)` yields 5 — an id that was dropped and is no longer in the
id map. -/
theorem C7_counterexample_pops_dropped_id :
    (popNTodo cOst3 1).1 = [5] ∧ alLookup cOst3.data (some 5) = none := by
  exact ⟨by decide, by decide⟩

/-- C4 counterexample: `unlock_write` does not drain the heap in priority
order — it iterates the raw heap array.  Loading records with priorities
`1, 5, 2` (already a valid binary heap in file order) and writing back
produces the table in array order `[1, 5, 2]`, which is not non-decreasing. -/
theorem C4_counterexample_output_not_priority_sorted :
    (unlock_write c4st).toOption.map (fun p => p.1.aaData.map Record.priority) =
      some [1, 5, 2] ∧
    ¬ List.Chain' (· ≤ ·) [(1 : ℚ), 5, 2] := by
  constructor
  · decide
  · intro h
    have h2 := (List.chain'_cons.mp (List.chain'_cons.mp h).2).1
    norm_num at h2


/-- C10: `reserve_seqs` and `unreserve_seqs` modify at most the `res` field
of the records whose ids they are given: the heap, the entry table, the
token supply, `resdatetime` and the id map's key list are untouched; every
key not listed keeps its exact record; and every record in the resulting
map agrees with the pre-call record on every field except possibly `res`. -/
theorem C10_reserve_unreserve_frame :
    (∀ (st : Store) (name : String) (seqs : List Int),
      ((reserve_seqs st name seqs).1).heap = st.heap ∧
      ((reserve_seqs st name seqs).1).entries = st.entries ∧
      ((reserve_seqs st name seqs).1).next = st.next ∧
      ((reserve_seqs st name seqs).1).resdatetime = st.resdatetime ∧
      ((reserve_seqs st name seqs).1).data.map Prod.fst = st.data.map Prod.fst ∧
      (∀ k, (∀ s ∈ seqs, some s ≠ k) →
        alLookup ((reserve_seqs st name seqs).1).data k = alLookup st.data k) ∧
      (∀ k r', alLookup ((reserve_seqs st name seqs).1).data k = some r' →
        ∃ r, alLookup st.data k = some r ∧ sameExceptRes r r')) ∧
    (∀ (st : Store) (name : String) (seqs : List Int),
      ((unreserve_seqs st name seqs).1).heap = st.heap ∧
      ((unreserve_seqs st name seqs).1).entries = st.entries ∧
      ((unreserve_seqs st name seqs).1).next = st.next ∧
      ((unreserve_seqs st name seqs).1).resdatetime = st.resdatetime ∧
      ((unreserve_seqs st name seqs).1).data.map Prod.fst = st.data.map Prod.fst ∧
      (∀ k, (∀ s ∈ seqs, some s ≠ k) →
        alLookup ((unreserve_seqs st name seqs).1).data k = alLookup st.data k) ∧
      (∀ k r', alLookup ((unreserve_seqs st name seqs).1).data k = some r' →
        ∃ r, alLookup st.data k = some r ∧ sameExceptRes r r')) :=
  ⟨fun st name seqs => reserve_seqs_frame seqs st name,
   fun st name seqs => unreserve_seqs_frame seqs st name⟩

/-- C10 witness: reserving id 10 leaves id 20's record, the heap and the
key list untouched. -/
theorem C10_witness :
    alLookup ((reserve_seqs c8st0 "zz" [10]).1).data (some 20) =
      alLookup c8st0.data (some 20) ∧
    ((reserve_seqs c8st0 "zz" [10]).1).heap = c8st0.heap ∧
    ((unreserve_seqs c8st0 "alice" [10]).1).data.map Prod.fst =
      c8st0.data.map Prod.fst :=
  ⟨(C10_reserve_unreserve_frame.1 c8st0 "zz" [10]).2.2.2.2.2.1 (some 20)
      (by decide),
   (C10_reserve_unreserve_frame.1 c8st0 "zz" [10]).1,
   (C10_reserve_unreserve_frame.2 c8st0 "alice" [10]).2.2.2.2.1⟩


/-- C2: writing a locked store whose records are complete and keyed by
their own seq, then re-locking and re-loading the written primary file,
yields an id map equal to the pre-write map, ignoring the recomputed
priority and time fields.  (Only the in-memory heap wiring differs; the
serialized slots, priority and time included, round-trip unchanged, so in
particular the map is equal up to those two fields.) -/
theorem C2_write_then_load_roundtrip :
    ∀ st : Store,
      (∀ p ∈ st.data, p.2.seq = p.1) →
      (∀ p ∈ st.data, isValid p.2 = true) →
      match unlock_write st with
      | .ok fs =>
          ∀ k, match alLookup (loadStore fs.1).data k, alLookup st.data k with
            | some r', some r => agreeIgnoringPrioTime r r'
            | none, none => True
            | _, _ => False
      | .error _ => False := by
  intro st hW1 hValid
  simp only [unlock_write]
  set A := (st.heap.map fun t => (keyOf st.entries t).seq).filter
      (fun os => (alLookup st.data os).isSome) with hA
  set B := (st.data.map Prod.fst).filter (fun k => ¬ k ∈ A) with hB
  have hrecs : ∀ r ∈ A.filterMap (alLookup st.data) ++
      B.filterMap (alLookup st.data), isValid r = true := by
    intro r hr
    rw [← List.filterMap_append] at hr
    obtain ⟨os, _, hlos⟩ := List.mem_filterMap.mp hr
    exact hValid (os, r) (alLookup_mem _ _ _ hlos)
  obtain ⟨ss, hss⟩ := strAll_ok _
    (fun r hr => hrecs r ((mem_pySorted seqLeB r _).mp hr))
  rw [hss]
  intro k
  have hcov : ∀ k₀, k₀ ∈ st.data.map Prod.fst → k₀ ∈ A ++ B := by
    intro k₀ hk₀
    rw [List.mem_append]
    by_cases hin : k₀ ∈ A
    · exact .inl hin
    · refine .inr (List.mem_filter.mpr ⟨hk₀, ?_⟩)
      simpa using hin
  have hcore := roundtrip_core st (A ++ B) hW1 hcov k
  rw [List.filterMap_append] at hcore
  exact hcore

/-- C2 witness: the reservation store written and reloaded; id 10's record
survives the round trip up to the ignored fields. -/
theorem C2_witness :
    unlock_write c8st0 = .ok c2pair ∧
    (match alLookup (loadStore c2pair.1).data (some 10),
          alLookup c8st0.data (some 10) with
      | some r', some r => agreeIgnoringPrioTime r r'
      | none, none => True
      | _, _ => False) := by
  have h := C2_write_then_load_roundtrip c8st0 (by decide) (by decide)
  have heq : unlock_write c8st0 = .ok c2pair := by decide
  refine ⟨heq, ?_⟩
  rw [heq] at h
  exact h (some 10)

/-- C4 (amended): when `unlock_write` succeeds, the written table's seq
column is exactly the raw heap-array seq list filtered to ids still in the
map, followed by the id-map keys that had no live heap entry; every id-map
key is covered, and every written row is a current record of the map.  The
kept part is in heap-array order, not priority order. -/
theorem C4_output_heap_order_filter_and_fallback :
    ∀ (st : Store) (f : SerializedFile) (txt : String),
      (∀ p ∈ st.data, p.2.seq = p.1) →
      unlock_write st = .ok (f, txt) →
      (f.aaData.map Record.seq =
        ((st.heap.map fun t => (keyOf st.entries t).seq).filter
          (fun os => (alLookup st.data os).isSome)) ++
        ((st.data.map Prod.fst).filter (fun k =>
          ¬ k ∈ (st.heap.map fun t => (keyOf st.entries t).seq).filter
            (fun os => (alLookup st.data os).isSome)))) ∧
      (∀ k, k ∈ st.data.map Prod.fst → k ∈ f.aaData.map Record.seq) ∧
      (∀ k, k ∈ f.aaData.map Record.seq → (alLookup st.data k).isSome = true) := by
  intro st f txt hW1 hok
  simp only [unlock_write] at hok
  set A := (st.heap.map fun t => (keyOf st.entries t).seq).filter
      (fun os => (alLookup st.data os).isSome) with hA
  set B := (st.data.map Prod.fst).filter (fun k => ¬ k ∈ A) with hB
  cases hs : strAll (pySorted seqLeB
      (A.filterMap (alLookup st.data) ++ B.filterMap (alLookup st.data))) with
  | error e => rw [hs] at hok; exact absurd hok (by simp)
  | ok lines =>
      rw [hs] at hok
      simp only [Except.ok.injEq, Prod.mk.injEq] at hok
      have hf : f.aaData =
          ((A.filterMap (alLookup st.data) ++
            B.filterMap (alLookup st.data)).map stripTok) := by
        rw [← hok.1]
      have hseqs : f.aaData.map Record.seq =
          A.filter (fun k => (alLookup st.data k).isSome) ++
          B.filter (fun k => (alLookup st.data k).isSome) := by
        rw [hf, List.map_map]
        have : Record.seq ∘ stripTok = Record.seq := by
          funext r
          rfl
        rw [this, List.map_append, filterMap_lookup_map_seq A st hW1,
          filterMap_lookup_map_seq B st hW1]
      have hAfix : A.filter (fun k => (alLookup st.data k).isSome) = A := by
        apply List.filter_eq_self.mpr
        intro k hk
        rw [hA] at hk
        exact (List.mem_filter.mp hk).2
      have hBfix : B.filter (fun k => (alLookup st.data k).isSome) = B := by
        apply List.filter_eq_self.mpr
        intro k hk
        rw [hB] at hk
        obtain ⟨v, hv⟩ := lookup_some_of_mem_keys st.data k (List.mem_filter.mp hk).1
        simp [hv]
      have hmain : f.aaData.map Record.seq = A ++ B := by
        rw [hseqs, hAfix, hBfix]
      refine ⟨hmain, ?_, ?_⟩
      · intro k hk
        rw [hmain, List.mem_append]
        by_cases hin : k ∈ A
        · exact .inl hin
        · refine .inr (List.mem_filter.mpr ⟨hk, ?_⟩)
          simpa using hin
      · intro k hk
        rw [hmain, List.mem_append] at hk
        rcases hk with hk | hk
        · rw [hA] at hk
          exact (List.mem_filter.mp hk).2
        · rw [hB] at hk
          obtain ⟨v, hv⟩ := lookup_some_of_mem_keys st.data k (List.mem_filter.mp hk).1
          simp [hv]

/-- C4 witness: the amended characterization instantiated on the store with
heap-array priorities `[1, 5, 2]`: the written seq column is the live
heap-array seqs (no fallback keys here). -/
theorem C4_witness :
    c4pair.1.aaData.map Record.seq =
      ((c4st.heap.map fun t => (keyOf c4st.entries t).seq).filter
        (fun os => (alLookup c4st.data os).isSome)) ++
      ((c4st.data.map Prod.fst).filter (fun k =>
        ¬ k ∈ (c4st.heap.map fun t => (keyOf c4st.entries t).seq).filter
          (fun os => (alLookup c4st.data os).isSome))) :=
  (C4_output_heap_order_filter_and_fallback c4st c4pair.1 c4pair.2
    (by decide) (by decide)).1


/-- C1 (amended): for every store loaded from a well-formed file (distinct,
present ids) and every sequence of `push_new_info` on ids not currently in
the map and `drop` on ids currently present, the lazy-deletion invariant
holds: for every id `k`, the number of live (non-tombstoned) heap entries
carrying seq `k` equals the number of occurrences of the key `k` in the id
map, and that number is at most one — so the live seq values are exactly
the id-map keys, with exactly one live entry per key. -/
theorem C1_live_entries_match_keys
    (f : SerializedFile) (ops : List SOp)
    (hnd : (f.aaData.map Record.seq).Nodup)
    (hsome : ∀ r ∈ f.aaData, ∃ k₀ : Int, r.seq = some k₀)
    (hok : OKRun C1OK (loadStore f) ops) (k : Int) :
    List.count k (liveSeqs (applyOps (loadStore f) ops)) =
      List.count (some k) (keysOf (applyOps (loadStore f) ops)) ∧
    List.count (some k) (keysOf (applyOps (loadStore f) ops)) ≤ 1 := by
  obtain ⟨hwf, hkl⟩ := load_WF f hnd
  obtain ⟨hwf', hkl'⟩ := OKRun_WF_C1 ops (loadStore f) hwf hkl hok
  exact WF_counts _ hwf' hkl' k

/-- C1 witness: one-row file with id 7, then a fresh push of id 5 and a
drop of id 7; the invariant is checked at id 5. -/
theorem C1_witness :
    List.count (5 : Int) (liveSeqs (applyOps (loadStore ⟨[mkRec 7 "" 1], none⟩)
        [SOp.push (mkRec 5 "" 2), SOp.dropIds [7]])) =
      List.count (some (5 : Int))
        (keysOf (applyOps (loadStore ⟨[mkRec 7 "" 1], none⟩)
          [SOp.push (mkRec 5 "" 2), SOp.dropIds [7]])) ∧
    List.count (some (5 : Int))
      (keysOf (applyOps (loadStore ⟨[mkRec 7 "" 1], none⟩)
        [SOp.push (mkRec 5 "" 2), SOp.dropIds [7]])) ≤ 1 :=
  C1_live_entries_match_keys ⟨[mkRec 7 "" 1], none⟩
    [SOp.push (mkRec 5 "" 2), SOp.dropIds [7]]
    (by decide)
    (by
      intro r hr
      simp only [List.mem_singleton] at hr
      subst hr
      exact ⟨7, rfl⟩)
    ⟨⟨5, rfl, by decide⟩,
      (by decide : ∀ s ∈ ([7] : List Int),
        (alLookup (applyOp (loadStore ⟨[mkRec 7 "" 1], none⟩)
          (SOp.push (mkRec 5 "" 2))).data (some s)).isSome = true),
      trivial⟩
    5

/-- C7 (amended): for every store reachable from a well-formed file by
`push_new_info` on fresh ids, `drop` on present ids and `pop_n_todo`,
`pop_n_todo(n)` yields at most `n` ids, every yielded id is present in the
id map at the time of the call (no dropped id is yielded), and the yielded
ids are in non-decreasing priority order. -/
theorem C7_pop_n_todo_sorted_live
    (f : SerializedFile) (ops : List SOp) (n : Nat)
    (hnd : (f.aaData.map Record.seq).Nodup)
    (hsome : ∀ r ∈ f.aaData, ∃ k₀ : Int, r.seq = some k₀)
    (hok : OKRun C7OK (loadStore f) ops) :
    (popNTodo (applyOps (loadStore f) ops) n).1.length ≤ n ∧
    (∀ s ∈ (popNTodo (applyOps (loadStore f) ops) n).1,
      ∃ r, alLookup (applyOps (loadStore f) ops).data (some s) = some r) ∧
    List.Chain' (· ≤ ·)
      ((popNTodo (applyOps (loadStore f) ops) n).1.map
        (prioOf (applyOps (loadStore f) ops))) := by
  have hwf := OKRun_WF_C7 ops (loadStore f) (load_WF f hnd).1 hok
  obtain ⟨h1, h2, h3, _, _, _⟩ := popNTodoGo_spec
    ((applyOps (loadStore f) ops).heap.length + n)
    (applyOps (loadStore f) ops) n (le_refl _) hwf
  refine ⟨h1, ?_, ?_⟩
  · intro s hs
    obtain ⟨t, htm, hts⟩ := h2 s hs
    obtain ⟨r, hr, _, _, _⟩ := hwf.live t htm s hts
    exact ⟨r, hr⟩
  · rw [List.chain'_map]
    refine List.Chain'.imp ?_ h3
    intro a b hab
    rcases hab with h | h
    · exact le_of_lt h
    · exact le_of_eq h.1

/-- C7 witness: a one-row file, no further operations, `pop_n_todo(1)`. -/
theorem C7_witness :
    (popNTodo (applyOps (loadStore ⟨[mkRec 7 "" 1], none⟩) []) 1).1.length ≤ 1 ∧
    (∀ s ∈ (popNTodo (applyOps (loadStore ⟨[mkRec 7 "" 1], none⟩) []) 1).1,
      ∃ r, alLookup (applyOps (loadStore ⟨[mkRec 7 "" 1], none⟩) []).data
        (some s) = some r) ∧
    List.Chain' (· ≤ ·)
      ((popNTodo (applyOps (loadStore ⟨[mkRec 7 "" 1], none⟩) []) 1).1.map
        (prioOf (applyOps (loadStore ⟨[mkRec 7 "" 1], none⟩) []))) :=
  C7_pop_n_todo_sorted_live ⟨[mkRec 7 "" 1], none⟩ [] 1
    (by decide)
    (by
      intro r hr
      simp only [List.mem_singleton] at hr
      subst hr
      exact ⟨7, rfl⟩)
    trivial

end MFAliquot
